import Mathlib

set_option maxRecDepth 10000

/-!
# Verification of the readability extraction pipeline

This development is a shallow embedding, in Lean 4, of the content-extraction
pipeline implemented in `readability/readability.py` (a Python 2 / lxml
program).  The embedding follows the source code function by function:

* DOM trees (`Node`) carry a tag, attributes, direct text and children, plus a
  unique numeric identifier standing for Python object identity; lxml `tail`
  text is not modelled (the data model of the program treats text as the text
  directly under a node, before its first child).
* Python 2 float arithmetic on heuristic scores is modelled by exact rational
  arithmetic: `Frac` is a fraction type whose denominator is positive by
  construction (`dpred + 1`) and which is never normalised, so every operation
  kernel-reduces.  All float constants of the source (`0.2`, `0.25`, `0.33`,
  `0.5`, `2.0`) denote exact rationals here.
* Python strings are modelled as `List Char`.  The regular expressions of the
  source are alternations of literal words (compiled with `re.I`), except for
  the share-link pattern (whose unescaped dots are wildcards) and the video
  pattern; each is compiled here by hand into a decidable matcher.
* In-place mutation of the lxml tree is modelled by pure tree-rewriting
  functions; iteration over live node sets is modelled by taking, per tag name,
  a snapshot of matching node identifiers and skipping identifiers that
  earlier rewrites detached from the tree (operations that the Python code
  performs inside already-detached subtrees do not change the attached tree,
  so skipping them is observationally equal on the result).
* `lxml.html.HtmlElement.drop_tree` asserts that the node has a parent;
  control paths of the source that would trip that assertion (or call a method
  on `None`) are modelled with an explicit error value, since the resulting
  Python exception is observable through `Document.summary`.
-/

/-! ## Exact fraction arithmetic standing for Python floats

`Frac` is an unnormalised fraction.  The denominator is stored as its
predecessor, so it is positive by construction and comparison by
cross-multiplication agrees with the rational order. -/

structure Frac where
  num : Int
  dpred : Nat
  deriving DecidableEq, Repr

/-- The (positive) denominator of a `Frac`. -/
def Frac.den (a : Frac) : Int := (a.dpred : Int) + 1

def Frac.add (a b : Frac) : Frac :=
  ⟨a.num * b.den + b.num * a.den, a.dpred * b.dpred + a.dpred + b.dpred⟩

def Frac.mul (a b : Frac) : Frac :=
  ⟨a.num * b.num, a.dpred * b.dpred + a.dpred + b.dpred⟩

/-- Build `n / d` for a positive denominator `d` (`d = 0` is clamped to 1;
all uses pass a positive `d`). -/
def Frac.mk' (n : Int) (d : Nat) : Frac := ⟨n, d - 1⟩

def Frac.ofInt (n : Int) : Frac := ⟨n, 0⟩

def Frac.ofNat (n : Nat) : Frac := ⟨(n : Int), 0⟩

/-- `1 - a`, computed on the common denominator (models Python `1 - x`). -/
def Frac.oneSub (a : Frac) : Frac := ⟨a.den - a.num, a.dpred⟩

/-- Halve a fraction (models Python `x / 2.0`). -/
def Frac.half (a : Frac) : Frac := ⟨a.num, 2 * a.dpred + 1⟩

instance : Add Frac := ⟨Frac.add⟩
instance : Mul Frac := ⟨Frac.mul⟩
instance : Zero Frac := ⟨⟨0, 0⟩⟩
instance : One Frac := ⟨⟨1, 0⟩⟩

def Frac.lt (a b : Frac) : Prop := a.num * b.den < b.num * a.den

def Frac.le (a b : Frac) : Prop := a.num * b.den ≤ b.num * a.den

/-- Value equality of fractions (cross multiplication); `Frac` itself is not
quotiented, so `≈` is the semantic equality used where Python compares
floats with `==`. -/
def Frac.eqv (a b : Frac) : Prop := a.num * b.den = b.num * a.den

instance : LT Frac := ⟨Frac.lt⟩
instance : LE Frac := ⟨Frac.le⟩

instance (a b : Frac) : Decidable (a < b) :=
  inferInstanceAs (Decidable (a.num * b.den < b.num * a.den))

instance (a b : Frac) : Decidable (a ≤ b) :=
  inferInstanceAs (Decidable (a.num * b.den ≤ b.num * a.den))

instance (a b : Frac) : Decidable (Frac.eqv a b) :=
  inferInstanceAs (Decidable (a.num * b.den = b.num * a.den))

theorem Frac.add_assoc' (a b c : Frac) : a + b + c = a + (b + c) := by
  show Frac.add (Frac.add a b) c = Frac.add a (Frac.add b c)
  simp only [Frac.add, Frac.den, Frac.mk.injEq]
  refine ⟨by push_cast; ring, by ring⟩

theorem Frac.zero_add' (a : Frac) : 0 + a = a := by
  show Frac.add ⟨0, 0⟩ a = a
  cases a
  simp only [Frac.add, Frac.den, Frac.mk.injEq]
  refine ⟨by push_cast; ring, by ring⟩

theorem Frac.add_zero' (a : Frac) : a + 0 = a := by
  show Frac.add a ⟨0, 0⟩ = a
  cases a
  simp only [Frac.add, Frac.den, Frac.mk.injEq]
  refine ⟨by push_cast; ring, by ring⟩

theorem Frac.add_comm' (a b : Frac) : a + b = b + a := by
  show Frac.add a b = Frac.add b a
  simp only [Frac.add, Frac.den, Frac.mk.injEq]
  refine ⟨by ring, by ring⟩

instance : AddCommMonoid Frac where
  add_assoc := Frac.add_assoc'
  zero_add := Frac.zero_add'
  add_zero := Frac.add_zero'
  add_comm := Frac.add_comm'
  nsmul := nsmulRec

/-- Denominators are always positive. -/
theorem Frac.den_pos (a : Frac) : 0 < a.den := by
  simp only [Frac.den]
  positivity

theorem Frac.le_refl' (a : Frac) : a ≤ a := by
  show a.num * a.den ≤ a.num * a.den
  exact le_rfl

theorem Frac.le_trans' {a b c : Frac} (h1 : a ≤ b) (h2 : b ≤ c) : a ≤ c := by
  show a.num * c.den ≤ c.num * a.den
  have hb := Frac.den_pos b
  have h1' : a.num * b.den * c.den ≤ b.num * a.den * c.den :=
    mul_le_mul_of_nonneg_right h1 (le_of_lt (Frac.den_pos c))
  have h2' : b.num * c.den * a.den ≤ c.num * b.den * a.den :=
    mul_le_mul_of_nonneg_right h2 (le_of_lt (Frac.den_pos a))
  nlinarith

theorem Frac.le_total' (a b : Frac) : a ≤ b ∨ b ≤ a := by
  rcases Int.le_total (a.num * b.den) (b.num * a.den) with h | h
  · exact Or.inl h
  · exact Or.inr h

theorem Frac.not_le_iff_lt {a b : Frac} : ¬ a ≤ b ↔ b < a := by
  constructor
  · intro h
    exact Int.lt_of_not_ge h
  · intro h hle
    exact absurd hle (Int.not_le.mpr h)

/-! ## Python string model: `List Char`

All text is modelled as `List Char` so that every operation kernel-reduces
(`decide` works on concrete inputs).  `str` converts a Lean string literal. -/

def str (s : String) : List Char := s.data

/-- Python whitespace (`\s` for ASCII subject strings, and the default
character set of `str.strip`). -/
def isPySpace (c : Char) : Bool :=
  c = ' ' || c = '\t' || c = '\n' || c = '\r' || c = '\x0b' || c = '\x0c'

/-- Case-folding on code points, lowering only ASCII letters (the patterns of
the source are ASCII and compiled with `re.I`). -/
def lowerN (c : Char) : Nat :=
  if 65 ≤ c.toNat && c.toNat ≤ 90 then c.toNat + 32 else c.toNat

def ciEqChar (a b : Char) : Bool := lowerN a == lowerN b

/-- Case-insensitive prefix test: does pattern `p` literally match at the
start of `s`? -/
def ciPrefix : List Char → List Char → Bool
  | [], _ => true
  | _ :: _, [] => false
  | p :: ps, t :: ts => ciEqChar p t && ciPrefix ps ts

/-- Case-insensitive substring search, the model of `re.search` for a pattern
that is an alternation of literal words compiled with `re.I`. -/
def ciSearch (pat : List Char) : List Char → Bool
  | [] => pat.isEmpty
  | c :: ts => ciPrefix pat (c :: ts) || ciSearch pat ts

/-- `re.search` for an alternation of literal branches. -/
def anySearch (pats : List (List Char)) (s : List Char) : Bool :=
  pats.any (fun p => ciSearch p s)

/-- Character test used by caller-supplied keyword patterns: `compile_pattern`
lowercases and `re.escape`s each keyword and compiles WITHOUT `re.I`, so a
lowercased pattern character must match the subject character exactly. -/
def kwEqChar (p t : Char) : Bool := lowerN p == t.toNat

def kwPrefix : List Char → List Char → Bool
  | [], _ => true
  | _ :: _, [] => false
  | p :: ps, t :: ts => kwEqChar p t && kwPrefix ps ts

def kwSearchOne (pat : List Char) : List Char → Bool
  | [] => pat.isEmpty
  | c :: ts => kwPrefix pat (c :: ts) || kwSearchOne pat ts

/-- `pattern.search(s)` for a keyword list compiled by `compile_pattern`. -/
def kwSearch (pats : List (List Char)) (s : List Char) : Bool :=
  pats.any (fun p => kwSearchOne p s)

/-- `pattern.match(s)` (anchored at the start) for a compiled keyword list. -/
def kwMatch (pats : List (List Char)) (s : List Char) : Bool :=
  pats.any (fun p => kwPrefix p s)

/-- Pattern-character test for the share-link pattern, whose unescaped `.`
is a regex wildcard (`twitter.com\/share|...`). -/
def wcEqChar (p t : Char) : Bool := p = '.' || ciEqChar p t

def wcPrefix : List Char → List Char → Bool
  | [], _ => true
  | _ :: _, [] => false
  | p :: ps, t :: ts => wcEqChar p t && wcPrefix ps ts

def wcSearchOne (pat : List Char) : List Char → Bool
  | [] => pat.isEmpty
  | c :: ts => wcPrefix pat (c :: ts) || wcSearchOne pat ts

/-- `REGEXES['shareLinks'].search`:
`twitter.com\/share|pinterest.com\/pin\/create|facebook.com\/sharer` with
`re.I`; the unescaped dots are wildcards. -/
def shareLinksSearch (s : List Char) : Bool :=
  wcSearchOne (str "twitter.com/share") s ||
  wcSearchOne (str "pinterest.com/pin/create") s ||
  wcSearchOne (str "facebook.com/sharer") s

/-- One anchored attempt of `REGEXES['videoRe']`:
`http:\/\/(www\.)?(youtube|vimeo)\.com` with `re.I`.  The optional `www.`
group needs no backtracking: a subject starting with `www.` can never also
start with `youtube`/`vimeo`. -/
def videoAt (s : List Char) : Bool :=
  ciPrefix (str "http://") s &&
  (let rest := s.drop 7
   let rest2 := if ciPrefix (str "www.") rest then rest.drop 4 else rest
   (ciPrefix (str "youtube.com") rest2 || ciPrefix (str "vimeo.com") rest2))

/-- `REGEXES['videoRe'].search`. -/
def videoSearch : List Char → Bool
  | [] => false
  | c :: ts => videoAt (c :: ts) || videoSearch ts

/-- `re.search('\.( |$)', s)`: a period followed by a space character or the
end of the subject (`$` also matches just before a final newline). -/
def periodSpaceEnd : List Char → Bool
  | [] => false
  | ['.'] => true
  | ['.', '\n'] => true
  | '.' :: ' ' :: _ => true
  | _ :: ts => periodSpaceEnd ts

/-! ### `clean` (readability.py lines 126-133)

`clean` applies `re.sub('\s*\n\s*', '\n', ·)`, then
`re.sub('[ \t]{2,}', ' ', ·)`, then `str.strip()`.  Each substitution only
rewrites maximal runs: a maximal whitespace run containing a newline becomes
a single newline; a maximal run of two or more spaces/tabs becomes one
space. -/

def flushNL (run : List Char) : List Char :=
  if run.contains '\n' then ['\n'] else run

/-- First substitution pass, accumulating the current whitespace run. -/
def collapseNL (run : List Char) : List Char → List Char
  | [] => flushNL run
  | c :: cs =>
      if isPySpace c then collapseNL (run ++ [c]) cs
      else flushNL run ++ c :: collapseNL [] cs

def flushST (run : List Char) : List Char :=
  if 2 ≤ run.length then [' '] else run

/-- Second substitution pass, collapsing runs of spaces and tabs. -/
def collapseST (run : List Char) : List Char → List Char
  | [] => flushST run
  | c :: cs =>
      if c = ' ' || c = '\t' then collapseST (run ++ [c]) cs
      else flushST run ++ c :: collapseST [] cs

/-- Python `str.lstrip()`. -/
def lstripPy (s : List Char) : List Char := s.dropWhile isPySpace

/-- Python `str.strip()`. -/
def stripPy (s : List Char) : List Char :=
  ((s.dropWhile isPySpace).reverse.dropWhile isPySpace).reverse

/-- `clean(text)` of readability.py. -/
def pyClean (s : List Char) : List Char :=
  stripPy (collapseST [] (collapseNL [] s))

/-- Number of occurrences of a character (Python `str.count`). -/
def countChar (c : Char) (s : List Char) : Nat := s.count c

/-- `len(text.split(','))`: number of comma-separated segments. -/
def commaSegments (s : List Char) : Nat := countChar ',' s + 1

/-! ## The DOM tree model

A `Node` is an lxml element: tag name, attribute list (keys unique), the text
directly under the element, and the ordered children.  `nid` is a unique
numeric identifier standing for Python object identity (the program keys its
candidate dictionary by element identity). -/

inductive Node where
  | mk (nid : Nat) (tag : List Char) (attrs : List (List Char × List Char))
       (text : List Char) (children : List Node)
  deriving Repr

def Node.nid : Node → Nat
  | .mk i _ _ _ _ => i

def Node.tag : Node → List Char
  | .mk _ tg _ _ _ => tg

def Node.attrs : Node → List (List Char × List Char)
  | .mk _ _ a _ _ => a

def Node.text : Node → List Char
  | .mk _ _ _ tx _ => tx

def Node.children : Node → List Node
  | .mk _ _ _ _ cs => cs

mutual
def Node.decEq : (a b : Node) → Decidable (a = b)
  | .mk i1 t1 at1 x1 c1, .mk i2 t2 at2 x2 c2 =>
    if h1 : i1 = i2 then
      if h2 : t1 = t2 then
        if h3 : at1 = at2 then
          if h4 : x1 = x2 then
            match Node.decEqL c1 c2 with
            | isTrue h5 => isTrue (by rw [h1, h2, h3, h4, h5])
            | isFalse h5 => isFalse (by intro h; injection h; contradiction)
          else isFalse (by intro h; injection h; contradiction)
        else isFalse (by intro h; injection h; contradiction)
      else isFalse (by intro h; injection h; contradiction)
    else isFalse (by intro h; injection h; contradiction)
def Node.decEqL : (a b : List Node) → Decidable (a = b)
  | [], [] => isTrue rfl
  | [], _ :: _ => isFalse (by intro h; cases h)
  | _ :: _, [] => isFalse (by intro h; cases h)
  | a :: as, b :: bs =>
    match Node.decEq a b, Node.decEqL as bs with
    | isTrue h1, isTrue h2 => isTrue (by rw [h1, h2])
    | isFalse h1, _ => isFalse (by intro h; injection h; contradiction)
    | _, isFalse h2 => isFalse (by intro h; injection h; contradiction)
end

instance : DecidableEq Node := Node.decEq

/-- Induction over a node and all members of its child list. -/
theorem Node.inductionOn {P : Node → Prop}
    (h : ∀ i tg a tx cs, (∀ c ∈ cs, P c) → P (Node.mk i tg a tx cs)) :
    ∀ n, P n
  | .mk i tg a tx cs =>
    h i tg a tx cs (fun c hc => Node.inductionOn h c)
termination_by n => sizeOf n
decreasing_by
  have := List.sizeOf_lt_of_mem hc
  simp only [Node.mk.sizeOf_spec]
  omega

def Node.setChildren : Node → List Node → Node
  | .mk i tg a tx _, cs => .mk i tg a tx cs

def Node.setTag : Node → List Char → Node
  | .mk i _ a tx cs, tg => .mk i tg a tx cs

def Node.setText : Node → List Char → Node
  | .mk i tg a _ cs, tx => .mk i tg a tx cs

def Node.setAttrs : Node → List (List Char × List Char) → Node
  | .mk i tg _ tx cs, a => .mk i tg a tx cs

/-- `elem.get(name)` (`None` when absent). -/
def Node.getAttr (n : Node) (k : List Char) : Option (List Char) :=
  (n.attrs.find? (fun kv => kv.1 == k)).map (fun kv => kv.2)

/-- `elem.get(name, '')`. -/
def Node.getAttrD (n : Node) (k : List Char) : List Char :=
  (n.getAttr k).getD []

/-- `elem.set(name, value)`: replace the attribute or append it. -/
def setAttrList (ats : List (List Char × List Char)) (k v : List Char) :
    List (List Char × List Char) :=
  if ats.any (fun kv => kv.1 == k) then
    ats.map (fun kv => if kv.1 == k then (k, v) else kv)
  else ats ++ [(k, v)]

mutual
/-- `elem.text_content()`: all text of the subtree in document order. -/
def Node.textContent : Node → List Char
  | .mk _ _ _ tx cs => tx ++ Node.textContentL cs
def Node.textContentL : List Node → List Char
  | [] => []
  | c :: cs => Node.textContent c ++ Node.textContentL cs
end

mutual
/-- All node identifiers of the subtree, in document (pre-)order. -/
def Node.idsList : Node → List Nat
  | .mk i _ _ _ cs => i :: Node.idsListL cs
def Node.idsListL : List Node → List Nat
  | [] => []
  | c :: cs => Node.idsList c ++ Node.idsListL cs
end

/-- Identifiers are pairwise distinct in the tree (Python object identity). -/
def UniqueIds (t : Node) : Prop := t.idsList.Nodup

instance (t : Node) : Decidable (UniqueIds t) :=
  inferInstanceAs (Decidable t.idsList.Nodup)

mutual
/-- Number of element nodes of the subtree. -/
def Node.countNodes : Node → Nat
  | .mk _ _ _ _ cs => 1 + Node.countNodesL cs
def Node.countNodesL : List Node → Nat
  | [] => 0
  | c :: cs => Node.countNodes c + Node.countNodesL cs
end

mutual
/-- Paths (child-index lists) of all proper descendants with the given tag,
in document order: the model of `node.findall('.//tag')`. -/
def Node.findPaths : Node → List Char → List (List Nat)
  | .mk _ _ _ _ cs, tg => Node.findPathsL cs tg 0
def Node.findPathsL : List Node → List Char → Nat → List (List Nat)
  | [], _, _ => []
  | c :: cs, tg, i =>
      (if c.tag = tg then [[i]] else []) ++
        (Node.findPaths c tg).map (fun p => i :: p) ++
        Node.findPathsL cs tg (i + 1)
end

mutual
/-- Paths of all nodes of the subtree including the root, in document order:
the model of `node.iter()`. -/
def Node.allPaths : Node → List (List Nat)
  | .mk _ _ _ _ cs => [] :: Node.allPathsL cs 0
def Node.allPathsL : List Node → Nat → List (List Nat)
  | [], _ => []
  | c :: cs, i => (Node.allPaths c).map (fun p => i :: p) ++ Node.allPathsL cs (i + 1)
end

/-- Look a path up in a tree. -/
def nodeAtPath : List Nat → Node → Option Node
  | [], n => some n
  | i :: p, n =>
    match n.children[i]? with
    | some c => nodeAtPath p c
    | none => none

/-- Remove the node at a (nonempty) path from the tree. -/
def removeAtPath : List Nat → Node → Node
  | [], n => n
  | [i], n => n.setChildren (n.children.eraseIdx i)
  | i :: p, n =>
    match n.children[i]? with
    | some c => n.setChildren (n.children.set i (removeAtPath p c))
    | none => n

/-- Rewrite the node at a path in place. -/
def modifyAtPath (f : Node → Node) : List Nat → Node → Node
  | [], n => f n
  | i :: p, n =>
    match n.children[i]? with
    | some c => n.setChildren (n.children.set i (modifyAtPath f p c))
    | none => n

mutual
/-- Path of the (first, in document order) node carrying the identifier;
under `UniqueIds` this is the node's unique position. -/
def Node.findById : Node → Nat → Option (List Nat)
  | .mk j _ _ _ cs, i => if j = i then some [] else Node.findByIdL cs i 0
def Node.findByIdL : List Node → Nat → Nat → Option (List Nat)
  | [], _, _ => none
  | c :: cs, i, k =>
    match Node.findById c i with
    | some p => some (k :: p)
    | none => Node.findByIdL cs i (k + 1)
end

/-- The node currently attached under identifier `i`, if any. -/
def Node.byId (t : Node) (i : Nat) : Option Node :=
  (t.findById i).bind (fun p => nodeAtPath p t)

/-! ## Tree predicates and text utilities (readability.py lines 61-133) -/

/-- `has_text(node)`: the direct text is non-`None` and non-blank (absent
text is modelled as `[]`, which Python's truthiness treats like `None`). -/
def hasText (n : Node) : Bool := !(stripPy n.text).isEmpty

/-- `is_empty_node(node)`: no text and no children. -/
def isEmptyNode (n : Node) : Bool := !hasText n && n.children.isEmpty

/-- `contains_one_or_more_tags(node, *tags)`. -/
def containsOneOrMoreTags (n : Node) (tags : List (List Char)) : Bool :=
  tags.any (fun tg => !(n.findPaths tg).isEmpty)

/-- `text_length(i) = len(clean(i.text_content() or ""))`. -/
def textLength (n : Node) : Nat := (pyClean n.textContent).length

/-- `Document.get_link_density` (lines 347-354): summed cleaned text length
of all `.//a` descendants over `max(total_length, 1)`. -/
def getLinkDensity (n : Node) : Frac :=
  let links := (n.findPaths (str "a")).filterMap (fun p => nodeAtPath p n)
  let linkLength : Nat := (links.map textLength).sum
  Frac.mk' (linkLength : Int) (max (textLength n) 1)

/-! ## Pattern registry (readability.py lines 25-54) -/

def BLOCK_LEVEL_ELEMENTS : List (List Char) :=
  [str "address", str "article", str "aside", str "audio", str "blockquote",
   str "canvas", str "dd", str "dl", str "div", str "img", str "ol", str "p",
   str "pre", str "section", str "table", str "ul", str "video"]

def UNLIKELY_CANDIDATES : List (List Char) :=
  [str "combx", str "comment", str "comentario", str "community", str "disqus",
   str "extra", str "foot", str "header", str "menu", str "remark", str "rss",
   str "shoutbox", str "sidebar", str "sponsor", str "ad-break", str "agegate",
   str "pagination", str "pager", str "popup", str "tweet", str "twitter",
   str "fb-share-button", str "fb-like", str "fb-send", str "fb-post",
   str "fb-follow", str "fb-comments", str "fb-activity",
   str "fb-recommendations", str "fb-like-box", str "fb-facepile"]

/-- `UNLIKELY_TAGS`; the source omits a comma after `"fb:comments"`, so that
literal and `"fb-activity"` concatenate into a single set element. -/
def UNLIKELY_TAGS : List (List Char) :=
  [str "fb:like", str "fb:share-button", str "fb:send", str "fb:post",
   str "fb:follow", str "fb:commentsfb-activity", str "fb:recommendations",
   str "fb:recommendations-bar", str "fb:like-box", str "fb:facepile"]

def unlikelyCandidatesRe (s : List Char) : Bool := anySearch UNLIKELY_CANDIDATES s

def okMaybeItsACandidateRe (s : List Char) : Bool :=
  anySearch [str "and", str "article", str "body", str "column", str "main",
             str "shadow"] s

def positiveRe (s : List Char) : Bool :=
  anySearch [str "article", str "body", str "content", str "entry",
             str "hentry", str "main", str "page", str "pagination",
             str "post", str "text", str "blog", str "story"] s

def negativeRe (s : List Char) : Bool :=
  anySearch [str "combx", str "comment", str "comentario", str "com-",
             str "related-post", str "contact", str "foot", str "footer",
             str "footnote", str "masthead", str "media", str "meta",
             str "outbrain", str "promo", str "related", str "scroll",
             str "shoutbox", str "sidebar", str "sponsor", str "shopping",
             str "tags", str "tool", str "widget"] s

/-! ## Document options (readability.py lines 149-179)

`minTextLength` and `retryLength` hold the resolved values of
`options.get('min_text_length', TEXT_LENGTH_THRESHOLD)` and
`options.get('retry_length', RETRY_LENGTH)`.  `posKeywords`/`negKeywords`
are the compiled caller keyword lists (`compile_pattern`; the empty list is
`None`).  `baseUrl` is `self.base_url`. -/

structure DocOptions where
  minTextLength : Nat := 25
  retryLength : Nat := 250
  posKeywords : List (List Char) := []
  negKeywords : List (List Char) := []
  baseUrl : List Char := []

/-- `Document.class_weight` (lines 410-432). -/
def classWeight (opts : DocOptions) (e : Node) : Int :=
  let featWeight : Option (List Char) → Int := fun feat =>
    match feat with
    | none => 0
    | some f =>
      if f.isEmpty then 0
      else
        (if negativeRe f then -25 else 0) +
        (if positiveRe f then 25 else 0) +
        (if !opts.posKeywords.isEmpty && kwSearch opts.posKeywords f then 25 else 0) +
        (if !opts.negKeywords.isEmpty && kwSearch opts.negKeywords f then -25 else 0)
  featWeight (e.getAttr (str "class")) + featWeight (e.getAttr (str "id")) +
    (if !opts.posKeywords.isEmpty && kwMatch opts.posKeywords (str "tag-" ++ e.tag)
      then 25 else 0) +
    (if !opts.negKeywords.isEmpty && kwMatch opts.negKeywords (str "tag-" ++ e.tag)
      then -25 else 0)

/-- Tag-name case folding (`elem.tag.lower()`). -/
def tagLowerEq (tg : List Char) (pat : List Char) : Bool :=
  tg.length == pat.length && (tg.zip pat).all (fun ab => ciEqChar ab.1 ab.2)

/-- `Document.score_node` (lines 434-448): class weight plus tag bonus; the
resulting score record is the pair of the score and the element id. -/
def scoreNode (opts : DocOptions) (e : Node) : Frac :=
  let w := classWeight opts e
  let bonus : Int :=
    if tagLowerEq e.tag (str "div") then 5
    else if [str "pre", str "td", str "blockquote"].any (tagLowerEq e.tag) then 3
    else if [str "address", str "ol", str "ul", str "dl", str "dd", str "dt",
             str "li", str "form"].any (tagLowerEq e.tag) then -3
    else if [str "h1", str "h2", str "h3", str "h4", str "h5", str "h6",
             str "th"].any (tagLowerEq e.tag) then -5
    else 0
  Frac.ofInt (w + bonus)

/-! ## Mutation by identifier

Every rewriting step of the pipeline locates its target by identity in the
current tree; a target that an earlier rewrite has detached is skipped (the
Python code would mutate the detached subtree, which the attached tree never
observes). -/

/-- `elem.drop_tree()` for the attached element with identifier `i`; no-op
when `i` is detached.  (The root case cannot be reached via the call sites
that use this helper: `.//` snapshots exclude the root.) -/
def dropTreeById (t : Node) (i : Nat) : Node :=
  match t.findById i with
  | some [] => t
  | some p => removeAtPath p t
  | none => t

/-- The loop of `drop_node_and_empty_parents`, structurally recursive on a
fuel that bounds the path length (so that it kernel-reduces). -/
def dropCascadeGo : Nat → Node → List Nat → Node
  | 0, t, _ => t
  | _, t, [] => t
  | fuel + 1, t, i :: rest =>
    let t' := removeAtPath (i :: rest) t
    let q := (i :: rest).dropLast
    if q.isEmpty then t'
    else
      match nodeAtPath q t' with
      | some par => if isEmptyNode par then dropCascadeGo fuel t' q else t'
      | none => t'

/-- `Document.drop_node_and_empty_parents` (lines 506-517) acting on the node
at path `p`: remove it, then walk up removing each parent that became empty
(no text, no children) until a non-empty parent or the root. -/
def dropCascadePath (t : Node) (p : List Nat) : Node :=
  dropCascadeGo p.length t p

/-- `drop_node_and_empty_parents` on the attached element with identifier
`i`. -/
def dropCascadeById (t : Node) (i : Nat) : Node :=
  match t.findById i with
  | some p => dropCascadePath t p
  | none => t

/-- Rewrite the attached element with identifier `i` in place. -/
def modifyById (t : Node) (i : Nat) (f : Node → Node) : Node :=
  match t.findById i with
  | some p => modifyAtPath f p t
  | none => t

def retagById (t : Node) (i : Nat) (tg : List Char) : Node :=
  modifyById t i (fun n => n.setTag tg)

def setTextById (t : Node) (i : Nat) (tx : List Char) : Node :=
  modifyById t i (fun n => n.setText tx)

def setAttrById (t : Node) (i : Nat) (k v : List Char) : Node :=
  modifyById t i (fun n => n.setAttrs (setAttrList n.attrs k v))

/-- `parent.replace(old, new)` for the attached element with identifier `i`. -/
def replaceById (t : Node) (i : Nat) (newNode : Node) : Node :=
  match t.findById i with
  | some [] => t
  | some (j :: rest) =>
    modifyAtPath
      (fun par =>
        par.setChildren (par.children.set ((j :: rest).getLast (by simp)) newNode))
      ((j :: rest).dropLast) t
  | none => t

/-- Snapshot of the identifiers of `node.findall('.//tag')`. -/
def idsOfTag (t : Node) (tg : List Char) : List Nat :=
  ((t.findPaths tg).filterMap (fun p => nodeAtPath p t)).map Node.nid

/-- `self.tags(node, *tags)` driving a per-element rewrite: the generator
yields `findall('.//tag')` per tag name lazily, so each tag's snapshot is
taken after the previous tags were processed. -/
def processTags (t : Node) (tags : List (List Char)) (op : Node → Nat → Node) :
    Node :=
  tags.foldl (fun acc tg => (idsOfTag acc tg).foldl op acc) t

/-- `self.reverse_tags(node, *tags)`: like `processTags` but each tag's
snapshot is processed in reverse document order. -/
def processTagsRev (t : Node) (tags : List (List Char)) (op : Node → Nat → Node) :
    Node :=
  tags.foldl (fun acc tg => (idsOfTag acc tg).reverse.foldl op acc) t

/-! ## Candidate map

`candidates` is keyed by element identity; the model is an association list
from node identifier to running content score, in insertion order (the order
in which candidates are first encountered; the source also keeps that order
separately in its `ordered` list). -/

abbrev CandList : Type := List (Nat × Frac)

def alookup (m : CandList) (i : Nat) : Option Frac :=
  (m.find? (fun e => e.1 == i)).map (fun e => e.2)

def addToCand (m : CandList) (i : Nat) (v : Frac) : CandList :=
  m.map (fun e => if e.1 == i then (e.1, e.2 + v) else e)

/-! ## `Document.sanitize_image` (readability.py lines 208-221) -/

def digitsToNat : List Char → Option Nat
  | [] => none
  | ds =>
    if ds.all (fun c => 48 ≤ c.toNat && c.toNat ≤ 57) then
      some (ds.foldl (fun a c => 10 * a + (c.toNat - 48)) 0)
    else none

/-- Python `int(string)`: optional surrounding whitespace, optional sign,
decimal digits; anything else raises `ValueError` (modelled as `none`, which
the `except: pass` of the source swallows). -/
def parseIntOpt (s : List Char) : Option Int :=
  match stripPy s with
  | '+' :: ds => (digitsToNat ds).map (fun n => (n : Int))
  | '-' :: ds => (digitsToNat ds).map (fun n => -(n : Int))
  | ds => (digitsToNat ds).map (fun n => (n : Int))

inductive ImgAct where
  | dropIt
  | setSrc (v : List Char)
  | keepIt
  deriving DecidableEq, Repr

/-- The size test of one loop iteration: the attribute is present and
`int()` parses it below 70 (a failing `int()` is swallowed by
`except: pass`). -/
def imgSmallAttr (img : Node) (a : List Char) : Bool :=
  match img.getAttr a with
  | some v =>
    match parseIntOpt v with
    | some k => decide (k < 70)
    | none => false
  | none => false

/-- The action `sanitize_image` takes on one `img` element: the size check
drops on a `width`/`height` attribute parsing to an integer below 70;
otherwise the `for`'s `else:` block drops a src-less image and absolutizes a
relative `src` by plain concatenation with `self.base_url`. -/
def sanitizeImageAct (opts : DocOptions) (img : Node) : ImgAct :=
  if imgSmallAttr img (str "width") || imgSmallAttr img (str "height") then .dropIt
  else
    match img.getAttr (str "src") with
    | some src =>
      if [str "//", str "https://", str "http://"].any (fun p => p.isPrefixOf src)
      then .keepIt
      else .setSrc (opts.baseUrl ++ src)
    | none => .dropIt

/-! ## `Document.sanitize` (readability.py lines 529-636)

The passes run in source order; each per-element operation first looks its
target up by identity and skips it when detached.  The `allowed` dictionary
of the source is never written, so its membership test is omitted; the
reassignment of `content_score` from the parent candidate (lines 597-602)
only feeds a debug message, so it is omitted as well.  `counts['a']` and
`counts['embed']` are computed by the source but never used. -/

def sanitizeHeaderOp (opts : DocOptions) (t : Node) (i : Nat) : Node :=
  match t.byId i with
  | some n =>
    if classWeight opts n < 0 ∨ Frac.mk' 33 100 < getLinkDensity n then
      dropCascadeById t i
    else t
  | none => t

def sanitizeParaOp (t : Node) (i : Nat) : Node :=
  match t.byId i with
  | some n =>
    let t1 := if n.text.isEmpty then t else setTextById t i (lstripPy n.text)
    match t1.byId i with
    | some n' => if isEmptyNode n' then dropCascadeById t1 i else t1
    | none => t1
  | none => t

def sanitizeAnchorOp (t : Node) (i : Nat) : Node :=
  match t.byId i with
  | some n =>
    if (match n.getAttr (str "href") with
        | some href => shareLinksSearch href
        | none => false) || isEmptyNode n then
      dropCascadeById t i
    else t
  | none => t

def sanitizeSpanOp (t : Node) (i : Nat) : Node :=
  match t.byId i with
  | some n => if isEmptyNode n then dropCascadeById t i else t
  | none => t

def sanitizeEmbedOp (t : Node) (i : Nat) : Node :=
  match t.byId i with
  | some n =>
    if (match n.getAttr (str "src") with
        | some src => videoSearch src
        | none => false) then t
    else dropCascadeById t i
  | none => t

def sanitizeIframeOp (t : Node) (i : Nat) : Node :=
  match t.byId i with
  | some n =>
    if (match n.getAttr (str "src") with
        | some src => videoSearch src
        | none => false) then
      setTextById t i (str "VIDEO")
    else dropCascadeById t i
  | none => t

def sanitizeImgOp (opts : DocOptions) (t : Node) (i : Nat) : Node :=
  match t.byId i with
  | some n =>
    match sanitizeImageAct opts n with
    | .dropIt => dropCascadeById t i
    | .setSrc v => setAttrById t i (str "src") v
    | .keepIt => t
  | none => t

/-- Should the conditional cleaning step remove this `table`/`ul`/`div`?
This is the `elif el.text_content().count(",") < 10` branch of lines
588-628. -/
def condCleanRemove (opts : DocOptions) (el : Node) (weight : Int) : Bool :=
  let cntP := (el.findPaths (str "p")).length
  let cntImg := (el.findPaths (str "img")).length
  let cntLi : Int := ((el.findPaths (str "li")).length : Int) - 100
  let cntInput := (el.findPaths (str "input")).length
  let contentLength := textLength el
  let ld := getLinkDensity el
  if cntP ≠ 0 ∧ cntP < cntImg then true
  else if (cntP : Int) < cntLi ∧ el.tag ≠ str "ul" ∧ el.tag ≠ str "ol" then true
  else if cntP / 3 < cntInput then true
  else if contentLength < opts.minTextLength ∧ (cntImg = 0 ∨ 2 < cntImg) then true
  else if weight < 25 ∧ Frac.mk' 1 5 < ld then true
  else if 25 ≤ weight ∧ Frac.mk' 1 2 < ld then true
  else false

def sanitizeCondOp (opts : DocOptions) (cands : CandList) (t : Node) (i : Nat) :
    Node :=
  match t.byId i with
  | some el =>
    let weight := classWeight opts el
    let contentScore := (alookup cands i).getD 0
    if Frac.ofInt weight + contentScore < 0 then dropTreeById t i
    else if countChar ',' el.textContent < 10 then
      if condCleanRemove opts el weight then dropCascadeById t i else t
    else t
  | none => t

/-- `Document.sanitize(node, candidates)` as a transformation of the tree
(the string the method returns is the serialization of this tree, performed
by the external `cleaners`/`tounicode` collaborators). -/
def sanitizeTree (opts : DocOptions) (cands : CandList) (node : Node) : Node :=
  let s1 := processTags node
    [str "h1", str "h2", str "h3", str "h4", str "h5", str "h6", str "p"]
    (sanitizeHeaderOp opts)
  let s2 := processTags s1 [str "article", str "section", str "header"]
    (fun t i => retagById t i (str "div"))
  let s3 := processTags s2 [str "p"] sanitizeParaOp
  let s4 := processTags s3 [str "a"] sanitizeAnchorOp
  let s5 := processTags s4 [str "span"] sanitizeSpanOp
  let s6 := processTags s5
    [str "form", str "textarea", str "input", str "button", str "select",
     str "aside", str "footer"]
    (fun t i => dropCascadeById t i)
  let s7 := processTags s6 [str "embed"] sanitizeEmbedOp
  let s8 := processTags s7 [str "iframe"] sanitizeIframeOp
  let s9 := processTags s8 [str "img"] (sanitizeImgOp opts)
  processTagsRev s9 [str "table", str "ul", str "div"] (sanitizeCondOp opts cands)

/-! ## `Document.remove_unlikely_candidates` (readability.py lines 454-465)

The loop walks `self.html.iter()`; it is modelled over the snapshot of
initially attached identifiers in document order, skipping detached ones.
Both conditions run for the same element (the first branch has no
`continue`), so an element dropped by the `UNLIKELY_TAGS` branch whose
class/id also matches the unlikely pattern is hit by `elem.drop_tree()`
while detached — `drop_tree` then fails its `parent is not None` assertion,
which the model surfaces as an error value. -/

def removeUnlikelyOp (t : Node) (i : Nat) : Except (List Char) Node :=
  match t.byId i with
  | none => .ok t
  | some elem =>
    let t1 := if UNLIKELY_TAGS.contains elem.tag then dropCascadeById t i else t
    let s := elem.getAttrD (str "class") ++ [' '] ++ elem.getAttrD (str "id")
    if s.length < 2 then .ok t1
    else if unlikelyCandidatesRe s ∧ ¬ okMaybeItsACandidateRe s ∧
            elem.tag ≠ str "html" ∧ elem.tag ≠ str "body" then
      match t1.findById i with
      | some (j :: rest) => .ok (removeAtPath (j :: rest) t1)
      | some [] => .error (str "AssertionError")
      | none => .error (str "AssertionError")
    else .ok t1

def removeUnlikelyCandidates (t0 : Node) : Except (List Char) Node :=
  t0.idsList.foldlM removeUnlikelyOp t0

/-! ## `Document.transform_misused_divs_into_paragraphs` (lines 467-504)

New `<p/>` and `<div/>` elements created by `fragment_fromstring` receive
fresh identifiers from a counter threaded through the pass. -/

def transformDivOp (acc : Node × Nat) (i : Nat) : Node × Nat :=
  let (t, ctr) := acc
  match t.byId i with
  | none => acc
  | some div =>
    if isEmptyNode div then
      -- `if is_empty_node(div) and div.getparent() is not None: div.drop_tree()`
      match t.findById i with
      | some (j :: rest) => (removeAtPath (j :: rest) t, ctr)
      | _ => acc
    else if containsOneOrMoreTags div BLOCK_LEVEL_ELEMENTS then
      let pText := if hasText div then stripPy div.text else []
      let step := div.children.foldl
        (fun (st : List Node × Node × Nat) child =>
          let (childs, curP, c) := st
          if BLOCK_LEVEL_ELEMENTS.contains child.tag then
            (childs ++ [curP, child], Node.mk c (str "p") [] [] [], c + 1)
          else
            (childs, curP.setChildren (curP.children ++ [child]), c))
        ([], Node.mk ctr (str "p") [] pText [], ctr + 1)
      let allChilds := step.1 ++ [step.2.1]
      let newdiv := Node.mk step.2.2 (str "div") [] []
        (allChilds.filter (fun ch => !isEmptyNode ch))
      (replaceById t i newdiv, step.2.2 + 1)
    else
      (retagById t i (str "p"), ctr)

def transformDivs (t0 : Node) (ctr0 : Nat) : Node × Nat :=
  (idsOfTag t0 (str "div")).foldl transformDivOp (t0, ctr0)

/-! ## `Document.score_paragraphs` (readability.py lines 356-408) -/

/-- Link density of the attached element with identifier `i` (the final
scaling loop reads each candidate element through its score record). -/
def ldOfId (t : Node) (i : Nat) : Frac :=
  match t.byId i with
  | some n => getLinkDensity n
  | none => 0

/-- `if parent_node not in candidates: candidates[parent_node] =
self.score_node(parent_node)` — create the score record on first
encounter. -/
def ensureCand (opts : DocOptions) (m : CandList) (n : Node) : CandList :=
  if (alookup m n.nid).isNone then m ++ [(n.nid, scoreNode opts n)] else m

/-- One iteration of the paragraph loop for the paragraph at path `pa`. -/
def scoreParaStep (opts : DocOptions) (t : Node) (m : CandList) (pa : List Nat) :
    CandList :=
  match pa with
  | [] => m
  | _ :: _ =>
    match nodeAtPath pa t with
    | none => m
    | some elem =>
      let parentPath := pa.dropLast
      let innerText := pyClean elem.textContent
      let innerLen := innerText.length
      if innerLen < opts.minTextLength then m
      else
        match nodeAtPath parentPath t with
        | none => m
        | some parentNode =>
          let m1 := ensureCand opts m parentNode
          let gp? := if parentPath.isEmpty then none
                     else nodeAtPath parentPath.dropLast t
          let m2 :=
            match gp? with
            | some g => ensureCand opts m1 g
            | none => m1
          let inc : Frac :=
            Frac.ofNat (1 + commaSegments innerText + min (innerLen / 100) 3)
          let m3 := addToCand m2 parentNode.nid inc
          match gp? with
          | some g => addToCand m3 g.nid (Frac.half inc)
          | none => m3

/-- The paragraph snapshot: `self.tags(self._html(), "p", "pre", "td")`
yields all `p` paths, then all `pre` paths, then all `td` paths, each in
document order. -/
def paraPaths (t : Node) : List (List Nat) :=
  t.findPaths (str "p") ++ t.findPaths (str "pre") ++ t.findPaths (str "td")

def scoreParagraphs (opts : DocOptions) (t : Node) : CandList :=
  let m := (paraPaths t).foldl (scoreParaStep opts t) []
  m.map (fun e => (e.1, e.2 * Frac.oneSub (ldOfId t e.1)))

/-! ## `Document.select_best_candidate` (readability.py lines 333-345)

`sorted(candidates.values(), key=..., reverse=True)` is a stable descending
sort of the dictionary's value view.  CPython 2 dictionaries iterate in hash
order of the element identities, which is NOT the insertion (encounter)
order; the model therefore takes the value list as an argument.  The summary
pipeline below passes the association list in insertion order. -/

def insertDesc (r : Nat × Frac) : List (Nat × Frac) → List (Nat × Frac)
  | [] => [r]
  | x :: xs => if r.2 ≤ x.2 then x :: insertDesc r xs else r :: x :: xs

/-- Stable descending insertion sort on the content score. -/
def sortedDesc (vals : List (Nat × Frac)) : List (Nat × Frac) :=
  vals.foldl (fun acc r => insertDesc r acc) []

def selectBestCandidate (vals : List (Nat × Frac)) : Option (Nat × Frac) :=
  (sortedDesc vals).head?

/-! ## `Document.get_article` (readability.py lines 284-331) -/

/-- `max([10, best_score * 0.2])`. -/
def siblingScoreThreshold (bestScore : Frac) : Frac :=
  let x := bestScore * Frac.mk' 1 5
  if Frac.ofNat 10 < x then x else Frac.ofNat 10

/-- The `append` flag computed for one sibling by the loop body. -/
def siblingAppend (cands : CandList) (bestId : Nat) (thresh : Frac)
    (sib : Node) : Bool :=
  (sib.nid == bestId) ||
  (match alookup cands sib.nid with
   | some sc => decide (thresh ≤ sc)
   | none => false) ||
  (sib.tag == str "p" &&
    (let linkDensity := getLinkDensity sib
     let nodeContent := sib.text
     let nodeLength := nodeContent.length
     decide ((80 < nodeLength ∧ linkDensity < Frac.mk' 1 4) ∨
       (nodeLength ≤ 80 ∧ Frac.eqv linkDensity 0 ∧
         periodSpaceEnd nodeContent = true))))

/-- `get_article`: retag a `body` best element, then move qualifying siblings
of the best candidate, in document order, into a fresh output container
(`<div/>` alone under `html_partial`, else an `html > body > div` shell).
A best element without a parent makes the source call `.getchildren()` on
`None`; that path is an error value. -/
def getArticle (cands : CandList) (best : Nat × Frac) (htmlPartial : Bool)
    (ctr : Nat) (t0 : Node) : Except (List Char) Node :=
  let thresh := siblingScoreThreshold best.2
  let t1 :=
    match t0.byId best.1 with
    | some n => if n.tag == str "body" then retagById t0 best.1 (str "div") else t0
    | none => t0
  match t1.findById best.1 with
  | none => .error (str "AttributeError")
  | some [] => .error (str "AttributeError")
  | some (j :: rest) =>
    match nodeAtPath ((j :: rest).dropLast) t1 with
    | none => .error (str "AttributeError")
    | some par =>
      let kept := par.children.filter (siblingAppend cands best.1 thresh)
      let inner := Node.mk ctr (str "div") [] [] kept
      if htmlPartial then .ok inner
      else .ok (Node.mk (ctr + 2) (str "html") [] []
        [Node.mk (ctr + 1) (str "body") [] [] [inner]])

/-! ## `Document.summary` (readability.py lines 224-282) -/

/-- A fresh identifier for nodes created by `fragment_fromstring` /
`document_fromstring`. -/
def freshId (t : Node) : Nat := t.idsList.foldl max 0 + 1

def firstChildWithTag (t : Node) (tg : List Char) : Option Node :=
  t.children.find? (fun c => c.tag == tg)

/-- One iteration of the `while True:` loop up to the point where
`cleaned_article` is computed: re-"parse" (the input tree is taken afresh),
drop `script`/`style`, mark the body, prune unlikely candidates when
ruthless, transform divs, score, select, assemble (or fall back to the raw
body when lenient), sanitize and render.  `.ok none` is the `continue` taken
when the ruthless pass found no candidate; `render` stands for the external
serialization `clean_attributes(tounicode(...))`. -/
def attemptPrep (doc : Node) : Node :=
  processTags (processTags doc [str "script", str "style"] dropTreeById)
    [str "body"] (fun t i => setAttrById t i (str "id") (str "readabilityBody"))

/-- The tail of one loop iteration once the transformed tree `t4` and its
candidate map are built: select, assemble (or fall back to the raw body
when lenient), sanitize, render. -/
def attemptAssemble (opts : DocOptions) (render : Node → List Char)
    (htmlPartial ruthless : Bool) (t4 : Node) (cands : CandList) :
    Except (List Char) (Option (List Char)) :=
  match selectBestCandidate cands with
  | some best =>
    match getArticle cands best htmlPartial (freshId t4) t4 with
    | .error e => .error e
    | .ok article => .ok (some (render (sanitizeTree opts cands article)))
  | none =>
    if ruthless then .ok none
    else
      let article := (firstChildWithTag t4 (str "body")).getD t4
      .ok (some (render (sanitizeTree opts cands article)))

def attemptCore (opts : DocOptions) (render : Node → List Char) (doc : Node)
    (htmlPartial ruthless : Bool) : Except (List Char) (Option (List Char)) :=
  match (if ruthless then removeUnlikelyCandidates (attemptPrep doc)
         else .ok (attemptPrep doc)) with
  | .error e => .error e
  | .ok t3 =>
    let t4 := (transformDivs t3 (freshId t3)).1
    attemptAssemble opts render htmlPartial ruthless t4 (scoreParagraphs opts t4)

/-- One full iteration of the loop: `.ok none` means `continue` (the next
iteration runs with `ruthless = False`): either the ruthless pass found no
candidate, or its cleaned output is shorter than `retry_length`. -/
def attemptStep (opts : DocOptions) (render : Node → List Char) (doc : Node)
    (htmlPartial ruthless : Bool) : Except (List Char) (Option (List Char)) :=
  match attemptCore opts render doc htmlPartial ruthless with
  | .error e => .error e
  | .ok none => .ok none
  | .ok (some s) =>
    if ruthless ∧ s.length < opts.retryLength then .ok none else .ok (some s)

/-- The `while True:` retry loop, with explicit fuel; `none` is the marker
for running out of fuel (the theorems show fuel 2 always suffices). -/
def summaryLoop (opts : DocOptions) (render : Node → List Char) (doc : Node)
    (htmlPartial : Bool) : Nat → Bool → Option (Except (List Char) (List Char))
  | 0, _ => none
  | n + 1, ruthless =>
    match attemptStep opts render doc htmlPartial ruthless with
    | .error e => some (.error e)
    | .ok (some s) => some (.ok s)
    | .ok none => summaryLoop opts render doc htmlPartial n false

/-! ## The exception wrapper of `summary` (lines 231, 280-282)

`except StandardError, e: raise Unparseable(str(e)), None, sys.exc_info()[2]`.
A `PyExc` records whether the exception class inherits from Python 2's
`StandardError` (`AssertionError`, `AttributeError`, `ValueError`... do;
`StopIteration` and custom or lxml exceptions deriving `Exception` directly
do not) and whether it is the `Unparseable` subclass of `ValueError`. -/

structure PyExc where
  isStandardError : Bool
  isUnparseable : Bool
  msg : List Char
  deriving DecidableEq, Repr

/-- The `try`/`except` of `summary` around the whole retry loop: a
`StandardError` is re-raised as `Unparseable(str(e))`; any other exception
propagates unchanged; a normal result passes through. -/
def summaryWrap (body : Except PyExc (List Char)) : Except PyExc (List Char) :=
  match body with
  | .ok s => .ok s
  | .error e =>
    if e.isStandardError then .error ⟨true, true, e.msg⟩ else .error e

instance {e a : Type} [DecidableEq e] [DecidableEq a] : DecidableEq (Except e a) :=
  fun x y =>
    match x, y with
    | .ok u, .ok v =>
      if h : u = v then isTrue (by rw [h])
      else isFalse (by intro hh; injection hh; contradiction)
    | .error u, .error v =>
      if h : u = v then isTrue (by rw [h])
      else isFalse (by intro hh; injection hh; contradiction)
    | .ok _, .error _ => isFalse (by intro hh; cases hh)
    | .error _, .ok _ => isFalse (by intro hh; cases hh)

/-! ## Infrastructure lemmas: identifiers, paths and lookup -/

theorem idsListL_eq_join (cs : List Node) :
    Node.idsListL cs = (cs.map Node.idsList).flatten := by
  induction cs with
  | nil => rfl
  | cons c rest ih => simp [Node.idsListL, ih]

theorem nodeAt_append (q1 q2 : List Nat) (t : Node) :
    nodeAtPath (q1 ++ q2) t = (nodeAtPath q1 t).bind (nodeAtPath q2) := by
  induction q1 generalizing t with
  | nil => simp [nodeAtPath]
  | cons i q1' ih =>
    simp only [List.cons_append, nodeAtPath]
    cases t.children[i]? with
    | none => simp
    | some c => simp [ih]

theorem mem_idsList_of_nodeAt {q : List Nat} {t x : Node}
    (h : nodeAtPath q t = some x) : x.nid ∈ t.idsList := by
  induction q generalizing t with
  | nil =>
    simp only [nodeAtPath, Option.some.injEq] at h
    subst h
    cases t with
    | mk i tg a tx cs => simp [Node.idsList, Node.nid]
  | cons i q' ih =>
    simp only [nodeAtPath] at h
    cases hc : t.children[i]? with
    | none => rw [hc] at h; cases h
    | some c =>
      rw [hc] at h
      have hx := ih h
      cases t with
      | mk j tg a tx cs =>
        simp only [Node.children] at hc
        have hcmem : c ∈ cs := List.getElem?_mem hc
        simp only [Node.idsList, List.mem_cons, idsListL_eq_join]
        right
        exact List.mem_flatten.mpr ⟨c.idsList, List.mem_map_of_mem Node.idsList hcmem, hx⟩

theorem findByIdL_sound {cs : List Node} {n k : Nat} {q : List Nat}
    (h : Node.findByIdL cs n k = some q) :
    ∃ j p c, q = (k + j) :: p ∧ cs[j]? = some c ∧ Node.findById c n = some p := by
  induction cs generalizing k with
  | nil => cases h
  | cons c0 rest ih =>
    simp only [Node.findByIdL] at h
    cases hf : Node.findById c0 n with
    | some p =>
      rw [hf] at h
      injection h with h
      exact ⟨0, p, c0, by simpa using h.symm, by simp, hf⟩
    | none =>
      rw [hf] at h
      obtain ⟨j, p, c, hq, hc, hfc⟩ := ih h
      refine ⟨j + 1, p, c, ?_, by simpa using hc, hfc⟩
      rw [hq]
      congr 1
      omega

theorem findById_sound {t : Node} {n : Nat} {q : List Nat} :
    t.findById n = some q →
    ∃ x, nodeAtPath q t = some x ∧ x.nid = n := by
  induction t using Node.inductionOn generalizing q with
  | _ j tg a tx cs ihcs =>
    intro h
    simp only [Node.findById] at h
    by_cases hj : j = n
    · simp only [if_pos hj] at h
      injection h with h
      subst h
      exact ⟨Node.mk j tg a tx cs, by simp [nodeAtPath], hj⟩
    · simp only [if_neg hj, Node.children] at h
      obtain ⟨i, p, c, hq, hc, hfc⟩ := findByIdL_sound h
      simp only [Nat.zero_add] at hq
      have hcmem : c ∈ cs := List.getElem?_mem hc
      obtain ⟨x, hx, hxn⟩ := ihcs c hcmem hfc
      subst hq
      exact ⟨x, by simp [nodeAtPath, Node.children, hc, hx], hxn⟩

theorem findById_mem {t : Node} {n : Nat} {q : List Nat}
    (h : t.findById n = some q) : n ∈ t.idsList := by
  obtain ⟨x, hx, hxn⟩ := findById_sound h
  exact hxn ▸ mem_idsList_of_nodeAt hx

theorem findById_eq_none {t : Node} {n : Nat} (h : n ∉ t.idsList) :
    t.findById n = none := by
  cases hf : t.findById n with
  | none => rfl
  | some q => exact absurd (findById_mem hf) h

theorem idsList_sublist_idsListL {c : Node} {cs : List Node} (h : c ∈ cs) :
    c.idsList.Sublist (Node.idsListL cs) := by
  induction cs with
  | nil => cases h
  | cons c0 rest ih =>
    rcases List.mem_cons.mp h with rfl | hmem
    · simpa [Node.idsListL] using List.sublist_append_left c.idsList (Node.idsListL rest)
    · exact (ih hmem).trans (by simpa [Node.idsListL] using
        List.sublist_append_right c0.idsList (Node.idsListL rest))

theorem findByIdL_complete {cs : List Node} {i : Nat} {c x : Node} {p : List Nat}
    (hnd : (Node.idsListL cs).Nodup) (hc : cs[i]? = some c)
    (hx : nodeAtPath p c = some x) (hfc : c.findById x.nid = some p) :
    ∀ k, Node.findByIdL cs x.nid k = some ((k + i) :: p) := by
  induction cs generalizing i with
  | nil => simp at hc
  | cons c0 rest ih =>
    intro k
    cases i with
    | zero =>
      simp only [List.getElem?_cons_zero, Option.some.injEq] at hc
      subst hc
      simp [Node.findByIdL, hfc]
    | succ i' =>
      simp only [List.getElem?_cons_succ] at hc
      have hmemc : c ∈ rest := List.getElem?_mem hc
      have hxin : x.nid ∈ Node.idsListL rest :=
        (idsList_sublist_idsListL hmemc).mem (mem_idsList_of_nodeAt hx)
      have hnd' : (c0.idsList ++ Node.idsListL rest).Nodup := by
        simpa [Node.idsListL] using hnd
      have hdisj := (List.nodup_append.mp hnd').2.2
      have hnot0 : x.nid ∉ c0.idsList := fun hmem0 => hdisj hmem0 hxin
      have h0 : c0.findById x.nid = none := findById_eq_none hnot0
      have := ih (List.nodup_append.mp hnd').2.1 hc (k + 1)
      simp only [Node.findByIdL, h0, this]
      congr 2
      omega

/-- Completeness: under unique identifiers, `findById` locates exactly the
node sitting at a given path. -/
theorem findById_complete : ∀ {q : List Nat} {t x : Node}, UniqueIds t →
    nodeAtPath q t = some x → t.findById x.nid = some q := by
  intro q
  induction q with
  | nil =>
    intro t x _ h
    simp only [nodeAtPath, Option.some.injEq] at h
    subst h
    cases t with
    | mk j tg a tx cs => simp [Node.findById, Node.nid]
  | cons i q' ih =>
    intro t x hu h
    cases t with
    | mk j tg a tx cs =>
      simp only [nodeAtPath, Node.children] at h
      cases hc : cs[i]? with
      | none => rw [hc] at h; cases h
      | some c =>
        rw [hc] at h
        have hcm : c ∈ cs := List.getElem?_mem hc
        have hnd : (j :: Node.idsListL cs).Nodup := hu
        have hndL : (Node.idsListL cs).Nodup := (List.nodup_cons.mp hnd).2
        have hjout : j ∉ Node.idsListL cs := (List.nodup_cons.mp hnd).1
        have hcnd : UniqueIds c :=
          List.Nodup.sublist (idsList_sublist_idsListL hcm) hndL
        have hfc := ih hcnd h
        have hxin : x.nid ∈ Node.idsListL cs :=
          (idsList_sublist_idsListL hcm).mem (mem_idsList_of_nodeAt h)
        have hjx : j ≠ x.nid := fun he => hjout (he ▸ hxin)
        have hL := findByIdL_complete hndL hc h hfc 0
        simp only [Node.findById, if_neg hjx, Node.children]
        simpa using hL

/-- Under unique identifiers, `byId` returns exactly the node at a path. -/
theorem byId_of_nodeAt {q : List Nat} {t x : Node} (hu : UniqueIds t)
    (h : nodeAtPath q t = some x) : t.byId x.nid = some x := by
  simp [Node.byId, findById_complete hu h, h]

/-- Identifier injectivity: two attached nodes with the same identifier sit
at the same path (and hence are the same node). -/
theorem nodeAt_inj {q1 q2 : List Nat} {t x1 x2 : Node} (hu : UniqueIds t)
    (h1 : nodeAtPath q1 t = some x1) (h2 : nodeAtPath q2 t = some x2)
    (hn : x1.nid = x2.nid) : q1 = q2 := by
  have f1 := findById_complete hu h1
  have f2 := findById_complete hu h2
  rw [hn] at f1
  rw [f1] at f2
  exact (Option.some.injEq _ _ ▸ f2).symm ▸ rfl

theorem removeAt_cons {i : Nat} {tail : List Nat} {t : Node} (h : tail ≠ []) :
    removeAtPath (i :: tail) t =
      (match t.children[i]? with
       | some c => t.setChildren (t.children.set i (removeAtPath tail c))
       | none => t) := by
  cases tail with
  | nil => exact absurd rfl h
  | cons j rest => rfl

theorem removeAt_meta (p : List Nat) (x : Node) :
    (removeAtPath p x).nid = x.nid ∧ (removeAtPath p x).tag = x.tag ∧
      (removeAtPath p x).text = x.text := by
  cases p with
  | nil => exact ⟨rfl, rfl, rfl⟩
  | cons i p' =>
    cases p' with
    | nil =>
      cases x with
      | mk j tg a tx cs => simp [removeAtPath, Node.setChildren, Node.nid, Node.tag, Node.text]
    | cons j rest =>
      cases hc : x.children[i]? with
      | none =>
        cases x with
        | mk j' tg a tx cs =>
          simp only [Node.children] at hc
          simp [removeAtPath, Node.children, hc]
      | some c =>
        cases x with
        | mk j' tg a tx cs =>
          simp only [Node.children] at hc
          simp [removeAtPath, Node.children, hc, Node.setChildren, Node.nid,
            Node.tag, Node.text]

theorem removeAt_prefix : ∀ (q : List Nat) {r : List Nat} (t : Node), r ≠ [] →
    nodeAtPath q (removeAtPath (q ++ r) t) = (nodeAtPath q t).map (removeAtPath r) := by
  intro q
  induction q with
  | nil => intro r t _; simp [nodeAtPath]
  | cons i q' ih =>
    intro r t hr
    have htail : q' ++ r ≠ [] := by
      intro hco
      exact hr (List.append_eq_nil.mp hco).2
    rw [List.cons_append, removeAt_cons htail]
    cases hc : t.children[i]? with
    | none =>
      simp only [nodeAtPath, hc]
      rfl
    | some c =>
      cases t with
      | mk j tg a tx cs =>
        simp only [Node.children] at hc
        simp only [nodeAtPath, Node.setChildren, Node.children]
        rw [List.getElem?_set_self']
        simp [hc, ih _ hr]

theorem idsListL_eraseIdx_sublist (cs : List Node) (i : Nat) :
    (Node.idsListL (cs.eraseIdx i)).Sublist (Node.idsListL cs) := by
  induction cs generalizing i with
  | nil => simp [List.eraseIdx]
  | cons c0 rest ih =>
    cases i with
    | zero =>
      simpa [List.eraseIdx, Node.idsListL] using
        List.sublist_append_right c0.idsList (Node.idsListL rest)
    | succ i' =>
      simpa [List.eraseIdx, Node.idsListL] using (ih i').append_left c0.idsList

theorem idsListL_set_sublist {cs : List Node} {i : Nat} {c y : Node}
    (hc : cs[i]? = some c) (hy : y.idsList.Sublist c.idsList) :
    (Node.idsListL (cs.set i y)).Sublist (Node.idsListL cs) := by
  induction cs generalizing i with
  | nil => simp at hc
  | cons c0 rest ih =>
    cases i with
    | zero =>
      simp only [List.getElem?_cons_zero, Option.some.injEq] at hc
      subst hc
      simpa [List.set, Node.idsListL] using hy.append_right (Node.idsListL rest)
    | succ i' =>
      simp only [List.getElem?_cons_succ] at hc
      simpa [List.set, Node.idsListL] using (ih hc).append_left c0.idsList

theorem ids_removeAt_sublist : ∀ (p : List Nat) (t : Node),
    (removeAtPath p t).idsList.Sublist t.idsList := by
  intro p
  induction p with
  | nil => intro t; exact List.Sublist.refl _
  | cons i p' ih =>
    intro t
    cases p' with
    | nil =>
      cases t with
      | mk j tg a tx cs =>
        simpa [removeAtPath, Node.setChildren, Node.idsList] using
          (idsListL_eraseIdx_sublist cs i).cons₂ j
    | cons k rest =>
      rw [removeAt_cons (by simp)]
      cases hc : t.children[i]? with
      | none => exact List.Sublist.refl _
      | some c =>
        cases t with
        | mk j tg a tx cs =>
          simp only [Node.children] at hc
          simpa [Node.setChildren, Node.idsList] using
            (idsListL_set_sublist hc (ih c)).cons₂ j

theorem ids_dropCascadeGo_sublist : ∀ (fuel : Nat) (t : Node) (p : List Nat),
    (dropCascadeGo fuel t p).idsList.Sublist t.idsList := by
  intro fuel
  induction fuel with
  | zero => intro t p; simp only [dropCascadeGo]; exact List.Sublist.refl _
  | succ f ih =>
    intro t p
    cases p with
    | nil => exact List.Sublist.refl _
    | cons i rest =>
      simp only [dropCascadeGo]
      set t' := removeAtPath (i :: rest) t with ht'
      have hsub : t'.idsList.Sublist t.idsList := ids_removeAt_sublist _ _
      by_cases hq : ((i :: rest).dropLast).isEmpty
      · simpa [hq] using hsub
      · simp only [hq, Bool.false_eq_true, if_false]
        cases hpar : nodeAtPath (i :: rest).dropLast t' with
        | none => exact hsub
        | some par =>
          by_cases he : isEmptyNode par
          · simpa [he] using (ih t' _).trans hsub
          · simpa [he] using hsub

theorem uniqueIds_removeAt {p : List Nat} {t : Node} (hu : UniqueIds t) :
    UniqueIds (removeAtPath p t) :=
  List.Nodup.sublist (ids_removeAt_sublist p t) hu

/-- The identifier of a removed node does not survive the removal (helper:
an identifier inside the `i`-th block of a nodup flattened list is not in
the other blocks). -/
theorem not_mem_flatten_eraseIdx {cs : List Node} {i : Nat} {c : Node} {n : Nat}
    (hnd : (Node.idsListL cs).Nodup) (hc : cs[i]? = some c)
    (hn : n ∈ c.idsList) : n ∉ Node.idsListL (cs.eraseIdx i) := by
  induction cs generalizing i with
  | nil => simp at hc
  | cons c0 rest ih =>
    have hnd' : (c0.idsList ++ Node.idsListL rest).Nodup := by
      simpa [Node.idsListL] using hnd
    have hdisj := (List.nodup_append.mp hnd').2.2
    cases i with
    | zero =>
      simp only [List.getElem?_cons_zero, Option.some.injEq] at hc
      subst hc
      simp only [List.eraseIdx_cons_zero]
      exact fun hmem => hdisj hn hmem
    | succ i' =>
      simp only [List.getElem?_cons_succ] at hc
      have hinrest : n ∈ Node.idsListL rest :=
        (idsList_sublist_idsListL (List.getElem?_mem hc)).mem hn
      have hn0 : n ∉ c0.idsList := fun hmem0 => hdisj hmem0 hinrest
      simp only [List.eraseIdx_cons_succ, Node.idsListL, List.mem_append]
      push_neg
      exact ⟨hn0, ih (List.nodup_append.mp hnd').2.1 hc⟩

theorem not_mem_flatten_set {cs : List Node} {i : Nat} {c y : Node} {n : Nat}
    (hnd : (Node.idsListL cs).Nodup) (hc : cs[i]? = some c)
    (hn : n ∈ c.idsList) (hy : n ∉ y.idsList) :
    n ∉ Node.idsListL (cs.set i y) := by
  induction cs generalizing i with
  | nil => simp at hc
  | cons c0 rest ih =>
    have hnd' : (c0.idsList ++ Node.idsListL rest).Nodup := by
      simpa [Node.idsListL] using hnd
    have hdisj := (List.nodup_append.mp hnd').2.2
    cases i with
    | zero =>
      simp only [List.getElem?_cons_zero, Option.some.injEq] at hc
      subst hc
      simp only [List.set, Node.idsListL, List.mem_append]
      push_neg
      exact ⟨hy, fun hmem => hdisj hn hmem⟩
    | succ i' =>
      simp only [List.getElem?_cons_succ] at hc
      have hinrest : n ∈ Node.idsListL rest :=
        (idsList_sublist_idsListL (List.getElem?_mem hc)).mem hn
      have hn0 : n ∉ c0.idsList := fun hmem0 => hdisj hmem0 hinrest
      simp only [List.set, Node.idsListL, List.mem_append]
      push_neg
      exact ⟨hn0, ih (List.nodup_append.mp hnd').2.1 hc⟩

theorem removed_id_not_mem : ∀ {p : List Nat} {t x : Node}, UniqueIds t →
    nodeAtPath p t = some x → p ≠ [] → x.nid ∉ (removeAtPath p t).idsList := by
  intro p
  induction p with
  | nil => intro t x _ _ hne; exact absurd rfl hne
  | cons i p' ih =>
    intro t x hu h _
    cases t with
    | mk j tg a tx cs =>
      simp only [nodeAtPath, Node.children] at h
      cases hc : cs[i]? with
      | none => rw [hc] at h; cases h
      | some c =>
        rw [hc] at h
        have hnd : (j :: Node.idsListL cs).Nodup := hu
        have hndL := (List.nodup_cons.mp hnd).2
        have hjout := (List.nodup_cons.mp hnd).1
        have hxin : x.nid ∈ c.idsList := by
          cases p' with
          | nil =>
            simp only [nodeAtPath, Option.some.injEq] at h
            subst h
            exact mem_idsList_of_nodeAt (q := []) rfl
          | cons k rest => exact mem_idsList_of_nodeAt h
        have hjx : j ≠ x.nid := by
          intro he
          exact hjout (he ▸ (idsList_sublist_idsListL (List.getElem?_mem hc)).mem hxin)
        cases p' with
        | nil =>
          simp only [nodeAtPath, Option.some.injEq] at h
          subst h
          simp only [removeAtPath, Node.setChildren, Node.idsList, List.mem_cons]
          push_neg
          exact ⟨fun he => hjx he.symm, not_mem_flatten_eraseIdx hndL hc hxin⟩
        | cons k rest =>
          rw [removeAt_cons (by simp)]
          simp only [Node.children, hc, Node.setChildren, Node.idsList, List.mem_cons]
          push_neg
          have hcu : UniqueIds c :=
            List.Nodup.sublist (idsList_sublist_idsListL (List.getElem?_mem hc)) hndL
          have hrem := ih hcu h (by simp)
          exact ⟨fun he => hjx he.symm, not_mem_flatten_set hndL hc hxin hrem⟩

theorem take_prefix_valid {p : List Nat} {t x : Node} (h : nodeAtPath p t = some x)
    (k : Nat) : ∃ y, nodeAtPath (p.take k) t = some y := by
  have := nodeAt_append (p.take k) (p.drop k) t
  rw [List.take_append_drop] at this
  rw [this] at h
  cases hy : nodeAtPath (p.take k) t with
  | none => rw [hy] at h; cases h
  | some y => exact ⟨y, rfl⟩

theorem isEmptyNode_false_of_child {n c : Node} {j : Nat}
    (h : n.children[j]? = some c) : isEmptyNode n = false := by
  have : c ∈ n.children := List.getElem?_mem h
  have hne : n.children ≠ [] := List.ne_nil_of_mem this
  simp [isEmptyNode, List.isEmpty_iff, hne]

theorem child_at_snoc {q : List Nat} {j : Nat} {t c y : Node}
    (h : nodeAtPath (q ++ [j]) t = some c) (hy : nodeAtPath q t = some y) :
    y.children[j]? = some c := by
  rw [nodeAt_append, hy] at h
  cases hc : y.children[j]? with
  | none => simp [nodeAtPath, hc] at h
  | some c' =>
    simp [nodeAtPath, hc] at h
    rw [h]

theorem take_dropLast_eq {p : List Nat} {k : Nat} (hk : k ≤ p.length - 1) :
    p.dropLast.take k = p.take k := by
  rw [List.dropLast_eq_take, List.take_take]
  congr 1
  omega

theorem ids_dropCascadeGo_remove_sublist {f : Nat} {t : Node} {p : List Nat}
    (hp : p ≠ []) (hf : 1 ≤ f) :
    (dropCascadeGo f t p).idsList.Sublist (removeAtPath p t).idsList := by
  cases f with
  | zero => omega
  | succ f' =>
    cases p with
    | nil => exact absurd rfl hp
    | cons i rest =>
      simp only [dropCascadeGo]
      by_cases hq : ((i :: rest).dropLast).isEmpty
      · simp [hq]
      · simp only [hq, Bool.false_eq_true, if_false]
        cases hpar : nodeAtPath (i :: rest).dropLast (removeAtPath (i :: rest) t) with
        | none => exact List.Sublist.refl _
        | some par =>
          by_cases he : isEmptyNode par
          · simpa [he] using ids_dropCascadeGo_sublist f' _ _
          · simpa [he] using List.Sublist.refl _

theorem take_succ_getElem : ∀ {α : Type} (p : List α) (k : Nat) (hk : k < p.length),
    p.take (k + 1) = p.take k ++ [p[k]] := by
  intro a p
  induction p with
  | nil => intro k hk; simp at hk
  | cons x xs ih =>
    intro k hk
    cases k with
    | zero => simp
    | succ k' =>
      simp only [List.take_succ_cons, List.getElem_cons_succ, List.cons_append]
      congr 1
      exact ih k' (by simpa using hk)

theorem dropCascadeGo_no_empty_ancestor :
    ∀ (fuel : Nat) (t : Node) (p : List Nat), p.length ≤ fuel → UniqueIds t →
    (∃ x, nodeAtPath p t = some x) →
    ∀ k, 0 < k → k < p.length →
    ∀ anc, nodeAtPath (p.take k) t = some anc →
    ∀ q' n, (dropCascadeGo fuel t p).findById anc.nid = some q' →
            nodeAtPath q' (dropCascadeGo fuel t p) = some n →
            isEmptyNode n = false := by
  intro fuel
  induction fuel with
  | zero =>
    intro t p hlen _ _ k hk0 hkp
    omega
  | succ f ih =>
    intro t p hlen hu hval k hk0 hkp anc hanc q' n hfind hnode
    obtain ⟨x, hx⟩ := hval
    cases p with
    | nil => simp at hkp
    | cons i rest =>
      -- notation
      set p := i :: rest with hp
      have hpne : p ≠ [] := by simp [hp]
      set t' := removeAtPath p t with ht'
      set q := p.dropLast with hqdef
      have hqlen : q.length = p.length - 1 := by simp [hqdef]
      have hklen : k ≤ p.length - 1 := by omega
      -- the parent is valid in t and in t'
      have hsnoc : q ++ [p.getLast hpne] = p := List.dropLast_append_getLast hpne
      have hqvalid : ∃ y, nodeAtPath q t = some y := by
        obtain ⟨y, hy⟩ := take_prefix_valid hx (p.length - 1)
        rw [← List.dropLast_eq_take] at hy
        exact ⟨y, hy⟩
      obtain ⟨par, hpar⟩ := hqvalid
      have hpar' : nodeAtPath q t' = some (removeAtPath [p.getLast hpne] par) := by
        have := removeAt_prefix q (r := [p.getLast hpne]) t (by simp)
        rw [hsnoc] at this
        rw [ht', this, hpar]
        rfl
      set par' := removeAtPath [p.getLast hpne] par with hpar'def
      have hmeta := removeAt_meta [p.getLast hpne] par
      -- ancestors in t' : nodeAtPath (p.take k) t' = some (removeAtPath (p.drop k) anc)
      have hanc' : nodeAtPath (p.take k) t' = some (removeAtPath (p.drop k) anc) := by
        have hr : p.drop k ≠ [] := by
          intro hco
          have := congrArg List.length hco
          simp at this
          omega
        have := removeAt_prefix (p.take k) (r := p.drop k) t hr
        rw [List.take_append_drop] at this
        rw [ht', this, hanc]
        rfl
      have hancmeta := removeAt_meta (p.drop k) anc
      have hu' : UniqueIds t' := uniqueIds_removeAt hu
      -- unfold one step of the cascade
      simp only [dropCascadeGo] at hfind hnode
      by_cases hqe : q.isEmpty
      · -- parent is the root: p.length = 1, no proper ancestor exists
        have : p.length = 1 := by
          rw [List.isEmpty_iff] at hqe
          have := congrArg List.length hqe
          rw [hqlen] at this
          simp at this
          omega
        omega
      · rw [← hqdef, ← ht'] at hfind hnode
        simp only [hqe, Bool.false_eq_true, if_false] at hfind hnode
        rw [hpar'] at hfind hnode
        have hred : (match some par' with
            | some par => if isEmptyNode par = true then dropCascadeGo f t' q else t'
            | none => t') = if isEmptyNode par' = true then dropCascadeGo f t' q else t' := rfl
        rw [hred] at hfind hnode
        by_cases he : isEmptyNode par'
        · -- cascade continues on the parent
          rw [if_pos he] at hfind hnode
          have hqne : q ≠ [] := by
            intro hco
            rw [hco] at hqe
            simp at hqe
          by_cases hkq : k < q.length
          · -- strictly higher ancestor: induction hypothesis on (t', q)
            have htake : q.take k = p.take k := take_dropLast_eq hklen
            have hanc'' : nodeAtPath (q.take k) t' = some (removeAtPath (p.drop k) anc) := by
              rw [htake]; exact hanc'
            have hnid : (removeAtPath (p.drop k) anc).nid = anc.nid := hancmeta.1
            refine ih t' q (by omega) hu' ⟨par', hpar'⟩ k hk0 hkq _ hanc'' q' n ?_ hnode
            rw [hnid]
            exact hfind
          · -- k = q.length: the ancestor is the (now empty) parent, which the
            -- cascade removes; its identifier cannot be found in the result
            have hkq' : k = q.length := by omega
            have htakeq : p.take k = q := by
              rw [hkq', hqlen, ← List.dropLast_eq_take]
            rw [htakeq] at hanc
            have hancpar : anc = par := by
              rw [hanc] at hpar
              exact (Option.some.injEq _ _ ▸ hpar)
            -- anc.nid is not in the result's identifier list
            have hgone : par'.nid ∉ (removeAtPath q t').idsList :=
              removed_id_not_mem hu' hpar' hqne
            have hsub : (dropCascadeGo f t' q).idsList.Sublist (removeAtPath q t').idsList := by
              apply ids_dropCascadeGo_remove_sublist hqne
              omega
            have : anc.nid ∈ (dropCascadeGo f t' q).idsList := findById_mem hfind
            rw [hancpar] at this
            rw [← hmeta.1] at this
            exact absurd (hsub.mem this) hgone
        · -- the parent is non-empty: the cascade stops at t'
          rw [if_neg he] at hfind hnode
          -- locate the ancestor in t'
          have hnid : (removeAtPath (p.drop k) anc).nid = anc.nid := hancmeta.1
          have hfind' : t'.findById anc.nid = some (p.take k) := by
            rw [← hnid]
            exact findById_complete hu' hanc'
          rw [hfind'] at hfind
          injection hfind with hq'
          subst hq'
          rw [hanc'] at hnode
          injection hnode with hn
          subst hn
          by_cases hkq : k < q.length
          · -- a strict ancestor of the parent keeps a child on the path
            have hqvalid' : ∃ y, nodeAtPath q t' = some y := ⟨par', hpar'⟩
            obtain ⟨y, hy⟩ := take_prefix_valid hpar' (k + 1)
            have htk1 : q.take (k + 1) = q.take k ++ [q.get ⟨k, by omega⟩] :=
              take_succ_getElem q k (by omega)
            rw [htk1] at hy
            have htake : q.take k = p.take k := take_dropLast_eq hklen
            rw [htake] at hy
            have hchild := child_at_snoc hy hanc'
            exact isEmptyNode_false_of_child hchild
          · -- k = q.length: the ancestor is the parent itself, tested non-empty
            have hkq' : k = q.length := by omega
            have htakeq : p.take k = q := by
              rw [hkq', hqlen, ← List.dropLast_eq_take]
            rw [htakeq] at hanc'
            rw [hpar'] at hanc'
            injection hanc' with hanc''
            rw [← hanc'']
            exact Bool.not_eq_true _ ▸ (by simpa using he)

/-! ## Claim C3 -/

/-- A `body > span > div` document whose only `div` is empty: the
div-to-paragraph transform drops the empty div with a plain `drop_tree`
(readability.py line 472), not `drop_node_and_empty_parents`. -/
def emptySpanDoc : Node :=
  Node.mk 0 (str "html") [] []
    [Node.mk 1 (str "body") [] []
      [Node.mk 2 (str "span") [] []
        [Node.mk 3 (str "div") [] [] []]]]

/-- C3, counterexample.  The claim says every node-drop operation in the
pipeline — including the empty-div drop of the div-to-paragraph transform —
removes every ancestor that becomes empty.  On `emptySpanDoc` the transform
drops the empty `div` (identifier 3) with `div.drop_tree()`, and its parent
`span` (identifier 2) is left attached to the tree at path `[0, 0]`, empty:
the drop does not cascade.  (`remove_unlikely_candidates` line 465 and the
negative-weight drop of `sanitize` line 587 likewise use plain
`drop_tree`.) -/
theorem C3_counterexample :
    (transformDivs emptySpanDoc 100).1.byId 3 = none ∧
    (transformDivs emptySpanDoc 100).1.findById 2 = some [0, 0] ∧
    ((transformDivs emptySpanDoc 100).1.byId 2).map isEmptyNode = some true := by
  decide

/-- C3, amended.  Drops routed through `drop_node_and_empty_parents` do
cascade: after `dropCascadePath t p` (the model of
`drop_node_and_empty_parents` on the attached node at path `p`), every
proper ancestor of the dropped node that is still attached to the tree is
non-empty — each ancestor that became empty was removed, up the chain,
until the first non-empty ancestor or the root.  The unlikely-candidate
regex drop, the empty-div drop of the transform, and the sanitizer's
negative-weight drop instead use plain `drop_tree` and can leave an empty
ancestor chain attached (see `C3_counterexample`). -/
theorem C3_cascade_removes_empty_ancestors :
    ∀ (t : Node) (p : List Nat), UniqueIds t →
    (∃ x, nodeAtPath p t = some x) →
    ∀ k, 0 < k → k < p.length →
    ∀ anc, nodeAtPath (p.take k) t = some anc →
    ∀ q' n, (dropCascadePath t p).findById anc.nid = some q' →
            nodeAtPath q' (dropCascadePath t p) = some n →
            isEmptyNode n = false :=
  fun t p hu hv k hk0 hkp anc hanc q' n hf hn =>
    dropCascadeGo_no_empty_ancestor p.length t p (Nat.le_refl _) hu hv k hk0 hkp
      anc hanc q' n hf hn

/-- A document where dropping the paragraph at path `[0, 0]` empties nothing
above the non-empty ancestor `div` 1 (which carries text). -/
def cascadeWitnessDoc : Node :=
  Node.mk 0 (str "div") [] []
    [Node.mk 1 (str "div") [] (str "keep")
      [Node.mk 2 (str "p") [] (str "x") []]]

/-- C3, witness for the amended theorem at a concrete input. -/
theorem C3_witness :
    isEmptyNode ((nodeAtPath [0] (dropCascadePath cascadeWitnessDoc [0, 0])).getD
      cascadeWitnessDoc) = false := by
  have h := C3_cascade_removes_empty_ancestors cascadeWitnessDoc [0, 0]
    (by decide) ⟨Node.mk 2 (str "p") [] (str "x") [], by decide⟩ 1 (by decide)
    (by decide) (Node.mk 1 (str "div") [] (str "keep")
      [Node.mk 2 (str "p") [] (str "x") []]) (by decide) [0]
    ((nodeAtPath [0] (dropCascadePath cascadeWitnessDoc [0, 0])).getD cascadeWitnessDoc)
    (by decide) (by decide)
  exact h

/-! ## Claim C6 -/

/-- A node with nested anchors: `findall('.//a')` returns both anchors, so
the text of the inner anchor is counted twice in the numerator of
`get_link_density`. -/
def nestedAnchorsNode : Node :=
  Node.mk 0 (str "div") [] []
    [Node.mk 1 (str "a") [] []
      [Node.mk 2 (str "a") [] (str "helloworld") []]]

/-- C6, counterexample.  The claim bounds `get_link_density` by 1 for every
node; on a node whose anchor contains another anchor the summed anchor text
lengths exceed the total text length and the density is 2. -/
theorem C6_counterexample :
    Frac.ofNat 1 < getLinkDensity nestedAnchorsNode ∧
    getLinkDensity nestedAnchorsNode = Frac.mk' 20 10 := by
  decide

/-- C6, amended.  `get_link_density` always returns a nonnegative value and
returns exactly 0 for a node with no text and no anchor descendants; the
division is always well-defined because the denominator is
`max(total_length, 1) ≥ 1`.  The upper bound 1 of the original claim fails
for nested anchors (see `C6_counterexample`). -/
theorem C6_link_density_nonneg_and_zero :
    ∀ n : Node, (0 : Frac) ≤ getLinkDensity n ∧
      (n.textContent = [] → n.findPaths (str "a") = [] → getLinkDensity n = 0) := by
  intro n
  constructor
  · show (0 : Frac).num * (getLinkDensity n).den ≤
      (getLinkDensity n).num * (0 : Frac).den
    have hnum : (getLinkDensity n).num =
        ((((n.findPaths (str "a")).filterMap (fun p => nodeAtPath p n)).map
          textLength).sum : Int) := rfl
    rw [hnum]
    have h0 : (0 : Frac).num = 0 := rfl
    rw [h0, Int.zero_mul]
    have : (0 : Int) ≤ ((((n.findPaths (str "a")).filterMap
        (fun p => nodeAtPath p n)).map textLength).sum : Int) :=
      Int.natCast_nonneg _
    exact mul_nonneg this (le_of_lt (Frac.den_pos 0))
  · intro h1 h2
    simp only [getLinkDensity, h1, h2, textLength, List.filterMap_nil,
      List.map_nil, List.sum_nil]
    rfl

/-- C6, witness: the amended theorem applied to a childless, text-less
node. -/
theorem C6_witness : getLinkDensity (Node.mk 0 (str "div") [] [] []) = 0 :=
  (C6_link_density_nonneg_and_zero (Node.mk 0 (str "div") [] [] [])).2
    (by decide) (by decide)

/-! ## Claim C4 -/

theorem Frac.le_of_lt' {a b : Frac} (h : a < b) : a ≤ b := Int.le_of_lt h

theorem insertDesc_perm (r : Nat × Frac) :
    ∀ xs : List (Nat × Frac), (insertDesc r xs).Perm (r :: xs) := by
  intro xs
  induction xs with
  | nil => simp [insertDesc]
  | cons x xs ih =>
    simp only [insertDesc]
    by_cases h : r.2 ≤ x.2
    · rw [if_pos h]
      exact (ih.cons x).trans (List.Perm.swap r x xs)
    · rw [if_neg h]

theorem sortedDesc_perm_aux :
    ∀ (vals acc : List (Nat × Frac)),
      (vals.foldl (fun acc r => insertDesc r acc) acc).Perm (acc ++ vals) := by
  intro vals
  induction vals with
  | nil => intro acc; simp
  | cons r rest ih =>
    intro acc
    have h1 := ih (insertDesc r acc)
    have h2 : (insertDesc r acc ++ rest).Perm (acc ++ r :: rest) := by
      have := (insertDesc_perm r acc).append_right rest
      exact this.trans List.perm_middle.symm
    exact (List.foldl_cons _ _ ▸ h1).trans h2

theorem sortedDesc_perm (vals : List (Nat × Frac)) :
    (sortedDesc vals).Perm vals := by
  simpa using sortedDesc_perm_aux vals []

/-- Descending order on score. -/
def ScoreGE (a b : Nat × Frac) : Prop := b.2 ≤ a.2

theorem insertDesc_sorted {xs : List (Nat × Frac)} (r : Nat × Frac)
    (h : xs.Pairwise ScoreGE) : (insertDesc r xs).Pairwise ScoreGE := by
  induction xs with
  | nil => simp [insertDesc, List.Pairwise]
  | cons x xs ih =>
    have hx := List.pairwise_cons.mp h
    simp only [insertDesc]
    by_cases hle : r.2 ≤ x.2
    · rw [if_pos hle]
      refine List.pairwise_cons.mpr ⟨?_, ih hx.2⟩
      intro b hb
      rcases List.mem_cons.mp ((insertDesc_perm r xs).mem_iff.mp hb) with rfl | hbxs
      · exact hle
      · exact hx.1 b hbxs
    · rw [if_neg hle]
      have hxr : x.2 ≤ r.2 := Frac.le_of_lt' (Frac.not_le_iff_lt.mp hle)
      refine List.pairwise_cons.mpr ⟨?_, h⟩
      intro b hb
      rcases List.mem_cons.mp hb with rfl | hbxs
      · exact hxr
      · exact Frac.le_trans' (hx.1 b hbxs) hxr

theorem sortedDesc_sorted (vals : List (Nat × Frac)) :
    (sortedDesc vals).Pairwise ScoreGE := by
  suffices h : ∀ (l acc : List (Nat × Frac)), acc.Pairwise ScoreGE →
      (l.foldl (fun acc r => insertDesc r acc) acc).Pairwise ScoreGE by
    exact h vals [] (by simp)
  intro l
  induction l with
  | nil => intro acc h; simpa using h
  | cons r rest ih =>
    intro acc h
    exact ih (insertDesc r acc) (insertDesc_sorted r h)

/-- C4, amended.  `select_best_candidate` returns `None` exactly when the
candidate map is empty, and otherwise a candidate of maximal final score.
The tie-break of the original claim does not hold: the stable sort operates
on `candidates.values()`, and a CPython 2 dictionary iterates its values in
hash order of the element identities, not in the order candidates were
first encountered during paragraph scoring, so the function is modelled on
the value list in whatever order the dictionary yields it (see
`C4_counterexample`). -/
theorem C4_select_best_none_iff_empty_and_maximal :
    ∀ vals : List (Nat × Frac),
      (selectBestCandidate vals = none ↔ vals = []) ∧
      (∀ r, selectBestCandidate vals = some r →
        r ∈ vals ∧ ∀ v ∈ vals, v.2 ≤ r.2) := by
  intro vals
  constructor
  · constructor
    · intro h
      simp only [selectBestCandidate, List.head?_eq_none_iff] at h
      exact ((sortedDesc_perm vals).symm.trans (h ▸ List.Perm.refl [])).eq_nil
    · intro h
      subst h
      rfl
  · intro r h
    simp only [selectBestCandidate] at h
    cases hs : sortedDesc vals with
    | nil => rw [hs] at h; cases h
    | cons b tail =>
      rw [hs] at h
      injection h with hbr
      rw [hbr] at hs
      have hperm := sortedDesc_perm vals
      rw [hs] at hperm
      constructor
      · exact hperm.mem_iff.mp (List.mem_cons_self r tail)
      · intro v hv
        rcases List.mem_cons.mp (hperm.mem_iff.mpr hv) with rfl | htail
        · exact Frac.le_refl' v.2
        · have hsorted := sortedDesc_sorted vals
          rw [hs] at hsorted
          exact (List.pairwise_cons.mp hsorted).1 v htail

/-- C4, counterexample.  Suppose candidates 1 and 2 tie on score and
candidate 1 was encountered first during paragraph scoring.  The dictionary
of a CPython 2 `Document` may iterate its values as `[(2, s), (1, s)]`; the
stable sort then returns candidate 2, not the first-encountered
candidate 1 — the claimed encounter-order tie-break does not hold. -/
theorem C4_counterexample :
    selectBestCandidate [(2, Frac.ofNat 5), (1, Frac.ofNat 5)] =
      some (2, Frac.ofNat 5) ∧
    (2, Frac.ofNat 5) ≠ (1, Frac.ofNat 5) := by
  decide

/-- C4, witness: the amended theorem applied to a concrete two-candidate
value list. -/
theorem C4_witness :
    (2, Frac.ofNat 7) ∈ [(1, Frac.ofNat 3), (2, Frac.ofNat 7)] ∧
    ∀ v ∈ [(1, Frac.ofNat 3), (2, Frac.ofNat 7)], v.2 ≤ Frac.ofNat 7 :=
  (C4_select_best_none_iff_empty_and_maximal
    [(1, Frac.ofNat 3), (2, Frac.ofNat 7)]).2 (2, Frac.ofNat 7) (by decide)

/-! ## Claim C7 -/

/-- The scenario document: the only substantial block is a `ul` with 50 `li`
items (24 characters of text each) and no `p` elements. -/
def ulFiftyDoc : Node :=
  Node.mk 0 (str "div") [] []
    [Node.mk 1 (str "ul") [] []
      ((List.range 50).map (fun k =>
        Node.mk (2 + k) (str "li") [] (str "itemitemitemitemitemitem") []))]

/-- C7, counterexample.  The claim says the `ul` must be dropped by the
conditional `ul` sanitizer rule unless it is the best candidate.  Running
the full sanitizer on `ulFiftyDoc` with a candidate map in which only the
root `div` (identifier 0) is a (best) candidate, the `ul` (identifier 1) is
NOT dropped: the `li`-count rule requires the node not to be a list, and
`50 - 100` exceeds no count anyway. -/
theorem C7_counterexample :
    selectBestCandidate [(0, Frac.ofNat 10)] = some (0, Frac.ofNat 10) ∧
    ((sanitizeTree {} [(0, Frac.ofNat 10)] ulFiftyDoc).byId 1).isSome = true := by
  decide

/-- C7, amended.  A `ul` whose subtree contains no `p`, `img` or `input`
elements, whose cleaned text is at least the configured minimum and whose
link density is at most `0.2` is never removed by the conditional cleaning
test: the `more <li>s than <p>s` rule is disabled for list tags, so the 50
`li` items cannot cause a drop. -/
theorem C7_ul_kept_by_conditional_rule :
    ∀ (opts : DocOptions) (el : Node) (weight : Int),
      el.tag = str "ul" →
      (el.findPaths (str "p")).length = 0 →
      (el.findPaths (str "img")).length = 0 →
      (el.findPaths (str "input")).length = 0 →
      opts.minTextLength ≤ textLength el →
      getLinkDensity el ≤ Frac.mk' 1 5 →
      condCleanRemove opts el weight = false := by
  intro opts el weight htag hP hImg hInput hlen hld
  have h5 : ¬ (Frac.mk' 1 5 < getLinkDensity el) := by
    show ¬ ((Frac.mk' 1 5).num * (getLinkDensity el).den <
      (getLinkDensity el).num * (Frac.mk' 1 5).den)
    exact Int.not_lt.mpr hld
  have h12 : getLinkDensity el ≤ Frac.mk' 1 2 :=
    Frac.le_trans' hld (by decide)
  have h6 : ¬ (Frac.mk' 1 2 < getLinkDensity el) := by
    show ¬ ((Frac.mk' 1 2).num * (getLinkDensity el).den <
      (getLinkDensity el).num * (Frac.mk' 1 2).den)
    exact Int.not_lt.mpr h12
  simp only [condCleanRemove, hP, hImg, hInput, htag]
  simp [h5, h6, Nat.not_lt.mpr hlen]

/-- C7, witness: the amended theorem applied to the scenario's `ul`. -/
theorem C7_witness :
    condCleanRemove {}
      (Node.mk 1 (str "ul") [] []
        ((List.range 50).map (fun k =>
          Node.mk (2 + k) (str "li") [] (str "itemitemitemitemitemitem") [])))
      0 = false :=
  C7_ul_kept_by_conditional_rule {} _ 0 (by decide) (by decide) (by decide)
    (by decide) (by decide) (by decide)

/-! ## Claim C8 -/

/-- The exceptions the embedded pipeline itself can raise (`AssertionError`
from `drop_tree`, `AttributeError` from a `None` parent) are
`StandardError`s and are not yet `Unparseable`. -/
def pipelineExc (e : List Char) : PyExc := ⟨true, false, e⟩

/-- `Document.summary` with its `try`/`except` wrapper: the retry loop runs
(fuel 2 suffices, see `C2_summary_two_attempts_and_retry`), and an escaping
`StandardError` is re-raised as `Unparseable`. -/
def pySummary (opts : DocOptions) (render : Node → List Char) (doc : Node)
    (htmlPartial : Bool) : Except PyExc (List Char) :=
  summaryWrap
    (match summaryLoop opts render doc htmlPartial 2 true with
     | some (.ok s) => .ok s
     | some (.error e) => .error (pipelineExc e)
     | none => .ok [])

/-- C8, counterexample.  The claim says ANY exception raised during a
`summary()` call surfaces as a single `Unparseable`.  The handler is
`except StandardError`; an exception whose class derives `Exception` but
not `StandardError` — e.g. lxml's `XMLSyntaxError` raised by the external
`build_doc` parse inside the `try` block, or a `StopIteration` — passes
through the wrapper unchanged and is NOT an `Unparseable`. -/
theorem C8_counterexample :
    summaryWrap (.error ⟨false, false, str "XMLSyntaxError"⟩) =
      .error ⟨false, false, str "XMLSyntaxError"⟩ ∧
    (⟨false, false, str "XMLSyntaxError"⟩ : PyExc).isUnparseable = false := by
  decide

/-- C8, amended.  Whenever a `StandardError` is raised while parsing,
scoring or mutating the tree during a `summary()` call, `summary` raises a
single `Unparseable` carrying the original failure's description
(`str(e)`); an exception not inheriting `StandardError` propagates
unchanged; in neither case is a partial result returned, and the pipeline's
own exceptions (which are `StandardError`s) are always wrapped. -/
theorem C8_standard_errors_wrapped_as_unparseable :
    (∀ (body : Except PyExc (List Char)) (e : PyExc), body = .error e →
       e.isStandardError = true → summaryWrap body = .error ⟨true, true, e.msg⟩) ∧
    (∀ (body : Except PyExc (List Char)) (e : PyExc), body = .error e →
       e.isStandardError = false → summaryWrap body = .error e) ∧
    (∀ (body : Except PyExc (List Char)) (e : PyExc), body = .error e →
       ∀ s, summaryWrap body ≠ .ok s) ∧
    (∀ (opts : DocOptions) (render : Node → List Char) (doc : Node)
       (htmlPartial : Bool) (e : List Char),
       summaryLoop opts render doc htmlPartial 2 true = some (.error e) →
       pySummary opts render doc htmlPartial = .error ⟨true, true, e⟩) := by
  refine ⟨?_, ?_, ?_, ?_⟩
  · intro body e hb hstd
    subst hb
    simp [summaryWrap, hstd]
  · intro body e hb hstd
    subst hb
    simp [summaryWrap, hstd]
  · intro body e hb s
    subst hb
    simp only [summaryWrap]
    by_cases hstd : e.isStandardError <;> simp [hstd]
  · intro opts render doc hp e hloop
    simp [pySummary, hloop, summaryWrap, pipelineExc]

/-- C8, witness: a concrete `StandardError` is wrapped into `Unparseable`
with the original message. -/
theorem C8_witness :
    summaryWrap (.error ⟨true, false, str "AssertionError"⟩) =
      .error ⟨true, true, str "AssertionError"⟩ :=
  C8_standard_errors_wrapped_as_unparseable.1
    (.error ⟨true, false, str "AssertionError"⟩)
    ⟨true, false, str "AssertionError"⟩ rfl rfl

/-! ## Claim C10 -/

/-- The components `urlparse` (Python standard library, an external
collaborator) extracts from a URL string.  `Document.__init__` reads only
`scheme` and `hostname`; `hostname` is `None` when the URL has no network
location, and `"%s://%s"` renders that `None` as the string `"None"`. -/
structure UrlParts where
  scheme : List Char
  hostname : Option (List Char)
  port : Option Nat
  path : List Char
  query : List Char

/-- `self.base_url = "%s://%s" % (parsed_url.scheme, parsed_url.hostname)`
(readability.py line 179). -/
def baseUrlOf (u : UrlParts) : List Char :=
  u.scheme ++ str "://" ++ (match u.hostname with
    | some h => h
    | none => str "None")

/-- `self.base_url` as set by `__init__`: empty when no (truthy) `url`
option is given (lines 175-179). -/
def docBaseUrl : Option UrlParts → List Char
  | none => []
  | some u => baseUrlOf u

/-- C10, counterexample.  The claim says an `img` whose `src` does not
start with `//`, `http://` or `https://` has its `src` rewritten to the
base URL concatenation.  An `img` with `width="50"` and such a relative
`src` is instead dropped by the size check, and no rewrite happens.  (The
first conjunct also exhibits the base URL for a URL with a port, a path
and a query: all three are discarded.) -/
theorem C10_counterexample :
    docBaseUrl (some ⟨str "http", some (str "example.com"), some 8080,
      str "/a/b", str "q=1"⟩) = str "http://example.com" ∧
    sanitizeImageAct { baseUrl := str "http://example.com" }
      (Node.mk 0 (str "img")
        [(str "width", str "50"), (str "src", str "/a.png")] [] []) =
      ImgAct.dropIt := by
  decide

/-- C10, amended.  With a `url` option, the base URL is exactly the url's
scheme, `"://"` and its hostname — the port, path and query components are
discarded — and an `img` that survives the size check (no `width`/`height`
attribute parsing to an integer below 70) whose `src` does not start with
`//`, `http://` or `https://` has its `src` rewritten to the plain
concatenation of the base URL and the original `src`; with no `url` option
the base URL is empty, so such a `src` is reassigned its own value,
byte-for-byte unchanged.  An `img` dropped by the size check is never
rewritten (see `C10_counterexample`). -/
theorem C10_base_url_and_src_rewrite :
    (∀ u v : UrlParts, u.scheme = v.scheme → u.hostname = v.hostname →
       baseUrlOf u = baseUrlOf v) ∧
    (∀ (opts : DocOptions) (url? : Option UrlParts) (img : Node) (src : List Char),
       opts.baseUrl = docBaseUrl url? →
       imgSmallAttr img (str "width") = false →
       imgSmallAttr img (str "height") = false →
       img.getAttr (str "src") = some src →
       ([str "//", str "https://", str "http://"].any
         (fun p => p.isPrefixOf src)) = false →
       sanitizeImageAct opts img = ImgAct.setSrc (docBaseUrl url? ++ src)) ∧
    (∀ (opts : DocOptions) (img : Node) (src : List Char),
       opts.baseUrl = docBaseUrl none →
       imgSmallAttr img (str "width") = false →
       imgSmallAttr img (str "height") = false →
       img.getAttr (str "src") = some src →
       ([str "//", str "https://", str "http://"].any
         (fun p => p.isPrefixOf src)) = false →
       sanitizeImageAct opts img = ImgAct.setSrc src) := by
  refine ⟨?_, ?_, ?_⟩
  · intro u v hs hh
    simp [baseUrlOf, hs, hh]
  · intro opts url? img src hbase hw hh hsrc hpre
    simp [sanitizeImageAct, hw, hh, hsrc, hpre, hbase]
  · intro opts img src hbase hw hh hsrc hpre
    have := hbase
    simp only [docBaseUrl] at this
    simp [sanitizeImageAct, hw, hh, hsrc, hpre, this]

/-- C10, witness: a relative `src` is absolutized against the base URL at a
concrete input. -/
theorem C10_witness :
    sanitizeImageAct { baseUrl := docBaseUrl (some ⟨str "http",
        some (str "example.com"), none, [], []⟩) }
      (Node.mk 0 (str "img") [(str "src", str "/a.png")] [] []) =
      ImgAct.setSrc (docBaseUrl (some ⟨str "http",
        some (str "example.com"), none, [], []⟩) ++ str "/a.png") :=
  C10_base_url_and_src_rewrite.2.1 _
    (some ⟨str "http", some (str "example.com"), none, [], []⟩)
    (Node.mk 0 (str "img") [(str "src", str "/a.png")] [] [])
    (str "/a.png") rfl (by decide) (by decide) (by decide) (by decide)

/-! ## Claim C5 -/

/-- A period followed by whitespace or the end of the string (the
specification's reading of the sentence-terminal pattern). -/
def periodWhitespaceEnd : List Char → Bool
  | [] => false
  | ['.'] => true
  | '.' :: c :: rest => isPySpace c || periodWhitespaceEnd (c :: rest)
  | _ :: rest => periodWhitespaceEnd rest

/-- The sibling-inclusion condition exactly as the specification words it
(spec section 4.4), for comparison with the source's `siblingAppend`:
"visible text length" is read as the cleaned text length of the whole
subtree (`text_length`), and the sentence-terminal test as a period
followed by whitespace or end-of-string over that visible text. -/
def specSiblingIncluded (cands : CandList) (bestId : Nat) (bestScore : Frac)
    (sib : Node) : Bool :=
  (sib.nid == bestId) ||
  (match alookup cands sib.nid with
   | some sc => decide (siblingScoreThreshold bestScore ≤ sc)
   | none => false) ||
  (sib.tag == str "p" && decide (getLinkDensity sib < Frac.mk' 1 4) &&
    decide (80 < textLength sib)) ||
  (sib.tag == str "p" && decide (textLength sib ≤ 80) &&
    decide (Frac.eqv (getLinkDensity sib) 0) &&
    periodWhitespaceEnd sib.textContent)

/-- A `p` sibling whose direct text is empty but whose bold child holds 93
characters of link-free prose. -/
def longChildPara : Node :=
  Node.mk 10 (str "p") [] []
    [Node.mk 11 (str "b") []
      (str "onehundredcharactersoftextgoinhereandthiskeepsgoinguntilwehaveplentyenoughtoexceedeightychars") []]

/-- The best candidate (identifier 9) and the paragraph side by side under
the document root. -/
def longChildDoc : Node :=
  Node.mk 0 (str "html") [] []
    [Node.mk 9 (str "div") [] (str "x") [], longChildPara]

/-- C5, counterexample.  The claim includes a sibling that "is a p element
with link density below 0.25 and visible text length exceeding 80
characters".  `longChildPara` satisfies that (and the specification's
condition `specSiblingIncluded`), yet `get_article` does not move it into
the output: the source tests `len(sibling.text or "")`, the direct text
before the first child — here empty — not the visible text. -/
theorem C5_counterexample :
    specSiblingIncluded [(9, Frac.ofNat 20)] 9 (Frac.ofNat 20) longChildPara = true ∧
    getArticle [(9, Frac.ofNat 20)] (9, Frac.ofNat 20) true 100 longChildDoc =
      .ok (Node.mk 100 (str "div") [] [] [Node.mk 9 (str "div") [] (str "x") []]) := by
  decide

/-- C5, amended.  A sibling is moved into the output if and only if: it is
the best candidate itself; or it is a scored candidate with content score
at least `max(10, best_score * 0.2)`; or it is a `p` element whose DIRECT
text (`sibling.text or ""`, raw, before the first child) is longer than 80
characters with link density below 0.25; or it is a `p` element of direct
text at most 80 characters with link density exactly 0 whose direct text
contains a period followed by a SPACE character or end-of-string
(`re.search('\.( |$)')`, which also matches before a final newline).
Included siblings keep original document order (the kept list is a sublist
of the sibling list). -/
theorem C5_sibling_moved_iff :
    ∀ (cands : CandList) (bestId : Nat) (bestScore : Frac) (l : List Node),
      (∀ sib : Node,
        sib ∈ l.filter (siblingAppend cands bestId (siblingScoreThreshold bestScore)) ↔
        (sib ∈ l ∧
          (sib.nid = bestId ∨
           (match alookup cands sib.nid with
            | some sc => siblingScoreThreshold bestScore ≤ sc
            | none => False) ∨
           (sib.tag = str "p" ∧ 80 < sib.text.length ∧
             getLinkDensity sib < Frac.mk' 1 4) ∨
           (sib.tag = str "p" ∧ sib.text.length ≤ 80 ∧
             Frac.eqv (getLinkDensity sib) 0 ∧ periodSpaceEnd sib.text = true)))) ∧
      (l.filter (siblingAppend cands bestId (siblingScoreThreshold bestScore))).Sublist l := by
  intro cands bestId bestScore l
  have hpred : ∀ sib : Node,
      siblingAppend cands bestId (siblingScoreThreshold bestScore) sib = true ↔
      (sib.nid = bestId ∨
       (match alookup cands sib.nid with
        | some sc => siblingScoreThreshold bestScore ≤ sc
        | none => False) ∨
       (sib.tag = str "p" ∧ 80 < sib.text.length ∧
         getLinkDensity sib < Frac.mk' 1 4) ∨
       (sib.tag = str "p" ∧ sib.text.length ≤ 80 ∧
         Frac.eqv (getLinkDensity sib) 0 ∧ periodSpaceEnd sib.text = true)) := by
    intro sib
    simp only [siblingAppend, Bool.or_eq_true, Bool.and_eq_true, beq_iff_eq,
      decide_eq_true_eq]
    cases halo : alookup cands sib.nid with
    | none =>
      simp only []
      constructor
      · rintro ((h1 | h2) | h3)
        · exact Or.inl h1
        · cases h2
        · rcases h3 with ⟨htag, hcond⟩
          rcases hcond with ⟨h80, hld⟩ | ⟨h80, hld0, hper⟩
          · exact Or.inr (Or.inr (Or.inl ⟨htag, h80, hld⟩))
          · exact Or.inr (Or.inr (Or.inr ⟨htag, h80, hld0, hper⟩))
      · rintro (h1 | h2 | ⟨htag, h80, hld⟩ | ⟨htag, h80, hld0, hper⟩)
        · exact Or.inl (Or.inl h1)
        · cases h2
        · exact Or.inr ⟨htag, Or.inl ⟨h80, hld⟩⟩
        · exact Or.inr ⟨htag, Or.inr ⟨h80, hld0, hper⟩⟩
    | some sc =>
      simp only [decide_eq_true_eq]
      constructor
      · rintro ((h1 | h2) | h3)
        · exact Or.inl h1
        · exact Or.inr (Or.inl h2)
        · rcases h3 with ⟨htag, hcond⟩
          rcases hcond with ⟨h80, hld⟩ | ⟨h80, hld0, hper⟩
          · exact Or.inr (Or.inr (Or.inl ⟨htag, h80, hld⟩))
          · exact Or.inr (Or.inr (Or.inr ⟨htag, h80, hld0, hper⟩))
      · rintro (h1 | h2 | ⟨htag, h80, hld⟩ | ⟨htag, h80, hld0, hper⟩)
        · exact Or.inl (Or.inl h1)
        · exact Or.inl (Or.inr h2)
        · exact Or.inr ⟨htag, Or.inl ⟨h80, hld⟩⟩
        · exact Or.inr ⟨htag, Or.inr ⟨h80, hld0, hper⟩⟩
  constructor
  · intro sib
    rw [List.mem_filter, hpred sib]
  · exact List.filter_sublist l

/-! ## Claim C2 -/

theorem attemptAssemble_false_ne_ok_none (opts : DocOptions)
    (render : Node → List Char) (htmlPartial : Bool) (t4 : Node)
    (cands : CandList) :
    attemptAssemble opts render htmlPartial false t4 cands ≠ .ok none := by
  intro hco
  simp only [attemptAssemble, Bool.false_eq_true, if_false] at hco
  split at hco
  · split at hco
    · cases hco
    · simp at hco
  · simp at hco

theorem attemptCore_false_ne_ok_none (opts : DocOptions)
    (render : Node → List Char) (doc : Node) (htmlPartial : Bool) :
    attemptCore opts render doc htmlPartial false ≠ .ok none := by
  intro hco
  simp only [attemptCore, Bool.false_eq_true, if_false] at hco
  exact attemptAssemble_false_ne_ok_none opts render htmlPartial _ _ hco

theorem attemptStep_false_ne_ok_none (opts : DocOptions)
    (render : Node → List Char) (doc : Node) (htmlPartial : Bool) :
    attemptStep opts render doc htmlPartial false ≠ .ok none := by
  intro hco
  simp only [attemptStep] at hco
  split at hco
  · cases hco
  · rename_i heq
    exact attemptCore_false_ne_ok_none opts render doc htmlPartial heq
  · rename_i s heq
    split at hco
    · rename_i hcond
      exact absurd hcond.1 (by simp)
    · cases hco

theorem summaryLoop_false_fuel (opts : DocOptions) (render : Node → List Char)
    (doc : Node) (htmlPartial : Bool) (n : Nat) :
    summaryLoop opts render doc htmlPartial (n + 1) false =
      summaryLoop opts render doc htmlPartial 1 false := by
  simp only [summaryLoop]
  cases h : attemptStep opts render doc htmlPartial false with
  | error e => rfl
  | ok o =>
    cases o with
    | some s => rfl
    | none => exact absurd h (attemptStep_false_ne_ok_none opts render doc htmlPartial)

theorem summaryLoop_false_ne_none (opts : DocOptions) (render : Node → List Char)
    (doc : Node) (htmlPartial : Bool) :
    summaryLoop opts render doc htmlPartial 1 false ≠ none := by
  simp only [summaryLoop]
  cases h : attemptStep opts render doc htmlPartial false with
  | error e => simp
  | ok o =>
    cases o with
    | some s => simp
    | none => exact absurd h (attemptStep_false_ne_ok_none opts render doc htmlPartial)

/-- C2.  The retry loop of `summary` is a bounded iteration: any fuel at
least 2 computes the same result as fuel 2 (at most two full attempts:
ruthless, then lenient), the loop always returns within two attempts, and
whenever the ruthless attempt's cleaned output is shorter than the
configured `retry_length`, the loop's result is exactly the lenient
attempt's result — the ruthless attempt's short output is never
returned. -/
theorem C2_summary_two_attempts_and_retry :
    ∀ (opts : DocOptions) (render : Node → List Char) (doc : Node)
      (htmlPartial : Bool) (n : Nat),
      (summaryLoop opts render doc htmlPartial (n + 2) true =
        summaryLoop opts render doc htmlPartial 2 true) ∧
      summaryLoop opts render doc htmlPartial 2 true ≠ none ∧
      (∀ s, attemptCore opts render doc htmlPartial true = .ok (some s) →
        s.length < opts.retryLength →
        summaryLoop opts render doc htmlPartial (n + 2) true =
          summaryLoop opts render doc htmlPartial 1 false ∧
        summaryLoop opts render doc htmlPartial 1 false ≠ none) := by
  intro opts render doc htmlPartial n
  refine ⟨?_, ?_, ?_⟩
  · show (match attemptStep opts render doc htmlPartial true with
      | Except.error e => some (Except.error e)
      | Except.ok (some s) => some (Except.ok s)
      | Except.ok none => summaryLoop opts render doc htmlPartial (n + 1) false) =
      (match attemptStep opts render doc htmlPartial true with
      | Except.error e => some (Except.error e)
      | Except.ok (some s) => some (Except.ok s)
      | Except.ok none => summaryLoop opts render doc htmlPartial 1 false)
    cases attemptStep opts render doc htmlPartial true with
    | error e => rfl
    | ok o =>
      cases o with
      | some s => rfl
      | none => exact summaryLoop_false_fuel opts render doc htmlPartial n
  · show (match attemptStep opts render doc htmlPartial true with
      | Except.error e => some (Except.error e)
      | Except.ok (some s) => some (Except.ok s)
      | Except.ok none => summaryLoop opts render doc htmlPartial 1 false) ≠ none
    cases attemptStep opts render doc htmlPartial true with
    | error e => simp
    | ok o =>
      cases o with
      | some s => simp
      | none => exact summaryLoop_false_ne_none opts render doc htmlPartial
  · intro s hcore hlen
    have hstep : attemptStep opts render doc htmlPartial true = .ok none := by
      simp only [attemptStep, hcore]
      rw [if_pos (And.intro trivial hlen)]
    constructor
    · show (match attemptStep opts render doc htmlPartial true with
        | Except.error e => some (Except.error e)
        | Except.ok (some s) => some (Except.ok s)
        | Except.ok none => summaryLoop opts render doc htmlPartial (n + 1) false) =
        summaryLoop opts render doc htmlPartial 1 false
      rw [hstep]
      exact summaryLoop_false_fuel opts render doc htmlPartial n
    · exact summaryLoop_false_ne_none opts render doc htmlPartial

/-- A minimal document on which the ruthless attempt succeeds: a `div`
containing a `div` containing a 25-character paragraph. -/
def shortRuthlessDoc : Node :=
  Node.mk 0 (str "div") [] []
    [Node.mk 1 (str "div") [] []
      [Node.mk 2 (str "p") [] (str "twentyfivecharsoftexthere") []]]

/-- A serializer whose output is always empty, making every cleaned article
shorter than `retry_length`. -/
def renderEmpty : Node → List Char := fun _ => []

/-- C2, witness: on `shortRuthlessDoc` with the empty serializer the
ruthless attempt succeeds with a 0-length cleaned article, and the loop
returns the lenient attempt's result. -/
theorem C2_witness :
    summaryLoop {} renderEmpty shortRuthlessDoc true 3 true =
      summaryLoop {} renderEmpty shortRuthlessDoc true 1 false ∧
    summaryLoop {} renderEmpty shortRuthlessDoc true 1 false ≠ none :=
  (C2_summary_two_attempts_and_retry {} renderEmpty shortRuthlessDoc true 1).2.2
    [] (by decide) (by decide)

/-! ## Claim C9 -/

theorem countNodesL_eraseIdx_le (cs : List Node) (i : Nat) :
    Node.countNodesL (cs.eraseIdx i) ≤ Node.countNodesL cs := by
  induction cs generalizing i with
  | nil => simp [List.eraseIdx]
  | cons c0 rest ih =>
    cases i with
    | zero =>
      simp only [List.eraseIdx_cons_zero, Node.countNodesL]
      omega
    | succ i' =>
      simp only [List.eraseIdx_cons_succ, Node.countNodesL]
      have := ih i'
      omega

theorem countNodesL_set_le {cs : List Node} {i : Nat} {c y : Node}
    (hc : cs[i]? = some c) (hy : y.countNodes ≤ c.countNodes) :
    Node.countNodesL (cs.set i y) ≤ Node.countNodesL cs := by
  induction cs generalizing i with
  | nil => simp at hc
  | cons c0 rest ih =>
    cases i with
    | zero =>
      simp only [List.getElem?_cons_zero, Option.some.injEq] at hc
      subst hc
      simp only [List.set, Node.countNodesL]
      omega
    | succ i' =>
      simp only [List.getElem?_cons_succ] at hc
      simp only [List.set, Node.countNodesL]
      have := ih hc
      omega

theorem countNodesL_set_eq {cs : List Node} {i : Nat} {c y : Node}
    (hc : cs[i]? = some c) (hy : y.countNodes = c.countNodes) :
    Node.countNodesL (cs.set i y) = Node.countNodesL cs := by
  induction cs generalizing i with
  | nil => simp at hc
  | cons c0 rest ih =>
    cases i with
    | zero =>
      simp only [List.getElem?_cons_zero, Option.some.injEq] at hc
      subst hc
      simp only [List.set, Node.countNodesL]
      omega
    | succ i' =>
      simp only [List.getElem?_cons_succ] at hc
      simp only [List.set, Node.countNodesL]
      have := ih hc
      omega

theorem count_removeAt_le : ∀ (p : List Nat) (t : Node),
    (removeAtPath p t).countNodes ≤ t.countNodes := by
  intro p
  induction p with
  | nil => intro t; exact Nat.le_refl _
  | cons i p' ih =>
    intro t
    cases p' with
    | nil =>
      cases t with
      | mk j tg a tx cs =>
        simp only [removeAtPath, Node.setChildren, Node.countNodes, Node.children]
        have := countNodesL_eraseIdx_le cs i
        omega
    | cons k rest =>
      rw [removeAt_cons (by simp)]
      cases hc : t.children[i]? with
      | none => exact Nat.le_refl _
      | some c =>
        cases t with
        | mk j tg a tx cs =>
          simp only [Node.children] at hc
          simp only [Node.setChildren, Node.countNodes, Node.children]
          have := countNodesL_set_le hc (ih c)
          omega

theorem count_modifyAt_eq {f : Node → Node}
    (hf : ∀ n, (f n).countNodes = n.countNodes) :
    ∀ (p : List Nat) (t : Node), (modifyAtPath f p t).countNodes = t.countNodes := by
  intro p
  induction p with
  | nil => intro t; exact hf t
  | cons i p' ih =>
    intro t
    simp only [modifyAtPath]
    cases hc : t.children[i]? with
    | none => rfl
    | some c =>
      cases t with
      | mk j tg a tx cs =>
        simp only [Node.children] at hc
        simp only [Node.setChildren, Node.countNodes, Node.children]
        have := countNodesL_set_eq hc (ih c)
        omega

theorem count_dropCascadeGo_le : ∀ (fuel : Nat) (t : Node) (p : List Nat),
    (dropCascadeGo fuel t p).countNodes ≤ t.countNodes := by
  intro fuel
  induction fuel with
  | zero => intro t p; simp only [dropCascadeGo]; exact Nat.le_refl _
  | succ f ih =>
    intro t p
    cases p with
    | nil => exact Nat.le_refl _
    | cons i rest =>
      simp only [dropCascadeGo]
      have hrem := count_removeAt_le (i :: rest) t
      by_cases hq : ((i :: rest).dropLast).isEmpty
      · simpa [hq] using hrem
      · simp only [hq, Bool.false_eq_true, if_false]
        cases hpar : nodeAtPath (i :: rest).dropLast (removeAtPath (i :: rest) t) with
        | none => exact hrem
        | some par =>
          by_cases he : isEmptyNode par
          · simpa [he] using Nat.le_trans (ih _ _) hrem
          · simpa [he] using hrem

theorem count_dropTreeById_le (t : Node) (i : Nat) :
    (dropTreeById t i).countNodes ≤ t.countNodes := by
  simp only [dropTreeById]
  cases h : t.findById i with
  | none => exact Nat.le_refl _
  | some p =>
    cases p with
    | nil => exact Nat.le_refl _
    | cons j rest => exact count_removeAt_le _ _

theorem count_dropCascadeById_le (t : Node) (i : Nat) :
    (dropCascadeById t i).countNodes ≤ t.countNodes := by
  simp only [dropCascadeById]
  cases h : t.findById i with
  | none => exact Nat.le_refl _
  | some p => exact count_dropCascadeGo_le _ _ _

theorem count_setTag (n : Node) (tg : List Char) :
    (n.setTag tg).countNodes = n.countNodes := by
  cases n; rfl

theorem count_setText (n : Node) (tx : List Char) :
    (n.setText tx).countNodes = n.countNodes := by
  cases n; rfl

theorem count_setAttrs (n : Node) (a : List (List Char × List Char)) :
    (n.setAttrs a).countNodes = n.countNodes := by
  cases n; rfl

theorem count_modifyById_le (t : Node) (i : Nat) {f : Node → Node}
    (hf : ∀ n, (f n).countNodes = n.countNodes) :
    (modifyById t i f).countNodes = t.countNodes := by
  simp only [modifyById]
  cases h : t.findById i with
  | none => rfl
  | some p => exact count_modifyAt_eq hf _ _

theorem count_retagById (t : Node) (i : Nat) (tg : List Char) :
    (retagById t i tg).countNodes = t.countNodes :=
  count_modifyById_le t i (fun n => count_setTag n tg)

theorem count_setTextById (t : Node) (i : Nat) (tx : List Char) :
    (setTextById t i tx).countNodes = t.countNodes :=
  count_modifyById_le t i (fun n => count_setText n tx)

theorem count_setAttrById (t : Node) (i : Nat) (k v : List Char) :
    (setAttrById t i k v).countNodes = t.countNodes :=
  count_modifyById_le t i (fun n => count_setAttrs n _)

theorem count_foldl_le {op : Node → Nat → Node}
    (hop : ∀ t i, (op t i).countNodes ≤ t.countNodes) :
    ∀ (ids : List Nat) (t : Node), (ids.foldl op t).countNodes ≤ t.countNodes := by
  intro ids
  induction ids with
  | nil => intro t; exact Nat.le_refl _
  | cons i rest ih =>
    intro t
    exact Nat.le_trans (ih (op t i)) (hop t i)

theorem count_processTags_le {op : Node → Nat → Node}
    (hop : ∀ t i, (op t i).countNodes ≤ t.countNodes) (tags : List (List Char)) :
    ∀ t : Node, (processTags t tags op).countNodes ≤ t.countNodes := by
  induction tags with
  | nil => intro t; exact Nat.le_refl _
  | cons tg rest ih =>
    intro t
    simp only [processTags, List.foldl_cons]
    have h1 : ((idsOfTag t tg).foldl op t).countNodes ≤ t.countNodes :=
      count_foldl_le hop _ t
    have h2 := ih ((idsOfTag t tg).foldl op t)
    simp only [processTags] at h2
    exact Nat.le_trans h2 h1

theorem count_processTagsRev_le {op : Node → Nat → Node}
    (hop : ∀ t i, (op t i).countNodes ≤ t.countNodes) (tags : List (List Char)) :
    ∀ t : Node, (processTagsRev t tags op).countNodes ≤ t.countNodes := by
  induction tags with
  | nil => intro t; exact Nat.le_refl _
  | cons tg rest ih =>
    intro t
    simp only [processTagsRev, List.foldl_cons]
    have h1 : ((idsOfTag t tg).reverse.foldl op t).countNodes ≤ t.countNodes :=
      count_foldl_le hop _ t
    have h2 := ih ((idsOfTag t tg).reverse.foldl op t)
    simp only [processTagsRev] at h2
    exact Nat.le_trans h2 h1

theorem count_sanitizeHeaderOp_le (opts : DocOptions) :
    ∀ (t : Node) (i : Nat), (sanitizeHeaderOp opts t i).countNodes ≤ t.countNodes := by
  intro t i
  simp only [sanitizeHeaderOp]
  split
  · split
    · exact count_dropCascadeById_le t i
    · exact Nat.le_refl _
  · exact Nat.le_refl _

theorem count_sanitizeParaOp_le :
    ∀ (t : Node) (i : Nat), (sanitizeParaOp t i).countNodes ≤ t.countNodes := by
  intro t i
  simp only [sanitizeParaOp]
  split
  · rename_i n heq
    have ht1 : (if n.text.isEmpty then t
        else setTextById t i (lstripPy n.text)).countNodes = t.countNodes := by
      split
      · rfl
      · exact count_setTextById t i (lstripPy n.text)
    split
    · split
      · exact Nat.le_trans (count_dropCascadeById_le _ i) (Nat.le_of_eq ht1)
      · exact Nat.le_of_eq ht1
    · exact Nat.le_of_eq ht1
  · exact Nat.le_refl _

theorem count_sanitizeAnchorOp_le :
    ∀ (t : Node) (i : Nat), (sanitizeAnchorOp t i).countNodes ≤ t.countNodes := by
  intro t i
  simp only [sanitizeAnchorOp]
  split
  · split
    · exact count_dropCascadeById_le t i
    · exact Nat.le_refl _
  · exact Nat.le_refl _

theorem count_sanitizeSpanOp_le :
    ∀ (t : Node) (i : Nat), (sanitizeSpanOp t i).countNodes ≤ t.countNodes := by
  intro t i
  simp only [sanitizeSpanOp]
  split
  · split
    · exact count_dropCascadeById_le t i
    · exact Nat.le_refl _
  · exact Nat.le_refl _

theorem count_sanitizeEmbedOp_le :
    ∀ (t : Node) (i : Nat), (sanitizeEmbedOp t i).countNodes ≤ t.countNodes := by
  intro t i
  simp only [sanitizeEmbedOp]
  split
  · split
    · exact Nat.le_refl _
    · exact count_dropCascadeById_le t i
  · exact Nat.le_refl _

theorem count_sanitizeIframeOp_le :
    ∀ (t : Node) (i : Nat), (sanitizeIframeOp t i).countNodes ≤ t.countNodes := by
  intro t i
  simp only [sanitizeIframeOp]
  split
  · split
    · exact Nat.le_of_eq (count_setTextById t i (str "VIDEO"))
    · exact count_dropCascadeById_le t i
  · exact Nat.le_refl _

theorem count_sanitizeImgOp_le (opts : DocOptions) :
    ∀ (t : Node) (i : Nat), (sanitizeImgOp opts t i).countNodes ≤ t.countNodes := by
  intro t i
  simp only [sanitizeImgOp]
  split
  · split
    · exact count_dropCascadeById_le t i
    · exact Nat.le_of_eq (count_setAttrById t i (str "src") _)
    · exact Nat.le_refl _
  · exact Nat.le_refl _

theorem count_sanitizeCondOp_le (opts : DocOptions) (cands : CandList) :
    ∀ (t : Node) (i : Nat), (sanitizeCondOp opts cands t i).countNodes ≤ t.countNodes := by
  intro t i
  simp only [sanitizeCondOp]
  split
  · split
    · exact count_dropTreeById_le t i
    · split
      · split
        · exact count_dropCascadeById_le t i
        · exact Nat.le_refl _
      · exact Nat.le_refl _
  · exact Nat.le_refl _

/-- C9, amended.  `sanitize` never adds element nodes: a pass only removes
nodes or edits tags, text and attributes in place, so the element count of
its output never exceeds that of its input (removed elements cannot
reappear).  Idempotence, however, fails: a second pass can drop further
nodes, because one rule's removals can newly expose another rule's
condition (see `C9_counterexample`). -/
theorem C9_sanitize_never_adds_nodes :
    ∀ (opts : DocOptions) (cands : CandList) (t : Node),
      (sanitizeTree opts cands t).countNodes ≤ t.countNodes := by
  intro opts cands t
  simp only [sanitizeTree]
  refine Nat.le_trans (count_processTagsRev_le
    (count_sanitizeCondOp_le opts cands) _ _) ?_
  refine Nat.le_trans (count_processTags_le (count_sanitizeImgOp_le opts) _ _) ?_
  refine Nat.le_trans (count_processTags_le count_sanitizeIframeOp_le _ _) ?_
  refine Nat.le_trans (count_processTags_le count_sanitizeEmbedOp_le _ _) ?_
  refine Nat.le_trans (count_processTags_le
    (fun t i => count_dropCascadeById_le t i) _ _) ?_
  refine Nat.le_trans (count_processTags_le count_sanitizeSpanOp_le _ _) ?_
  refine Nat.le_trans (count_processTags_le count_sanitizeAnchorOp_le _ _) ?_
  refine Nat.le_trans (count_processTags_le count_sanitizeParaOp_le _ _) ?_
  refine Nat.le_trans (count_processTags_le
    (fun t i => Nat.le_of_eq (count_retagById t i (str "div"))) _ _) ?_
  exact count_processTags_le (count_sanitizeHeaderOp_le opts) _ _

/-- A paragraph whose anchor holds 3 characters and whose form holds 7:
link density 3/10 before the form is removed, 3/3 after. -/
def formParaDoc : Node :=
  Node.mk 0 (str "div") [] []
    [Node.mk 1 (str "p") [] []
      [Node.mk 2 (str "a") [(str "href", str "x")] (str "abc") [],
       Node.mk 3 (str "form") [] (str "abcdefg") []]]

/-- C9, counterexample.  `sanitize` is not idempotent: the first pass keeps
the paragraph (link density `3/10 ≤ 0.33`) and then drops the `form`; on
the second pass the same paragraph's link density is `3/3 > 0.33`, so the
header/paragraph rule now drops it — the second pass changes the tree. -/
theorem C9_counterexample :
    sanitizeTree {} [] (sanitizeTree {} [] formParaDoc) ≠
      sanitizeTree {} [] formParaDoc := by
  decide

/-! ## Claim C1 -/

/-- Does the paragraph at path `pa` qualify for scoring: it has a parent
(nonempty path) and its cleaned text reaches the configured minimum. -/
def paraQualifies (opts : DocOptions) (t : Node) (pa : List Nat) : Bool :=
  !pa.isEmpty &&
  (match nodeAtPath pa t with
   | some elem => decide (opts.minTextLength ≤ (pyClean elem.textContent).length)
   | none => false)

/-- The per-paragraph increment
`1 + len(inner_text.split(',')) + min(inner_text_len // 100, 3)`. -/
def incOfPath (t : Node) (pa : List Nat) : Frac :=
  match nodeAtPath pa t with
  | some elem =>
    Frac.ofNat (1 + commaSegments (pyClean elem.textContent) +
      min ((pyClean elem.textContent).length / 100) 3)
  | none => 0

/-- Identifier of the paragraph's parent. -/
def parentIdAt (t : Node) (pa : List Nat) : Option Nat :=
  (nodeAtPath pa.dropLast t).map Node.nid

/-- Identifier of the paragraph's grandparent (`None` when the parent is
the root). -/
def gpIdAt (t : Node) (pa : List Nat) : Option Nat :=
  if pa.dropLast.isEmpty then none
  else (nodeAtPath pa.dropLast.dropLast t).map Node.nid

/-- The total contribution a candidate accumulates over a paragraph list:
the full increment for each qualifying paragraph whose parent it is, plus
half the increment for each qualifying paragraph whose grandparent it
is. -/
def specContrib (opts : DocOptions) (t : Node) (L : List (List Nat))
    (cid : Nat) : Frac :=
  (((L.filter (paraQualifies opts t)).filter
      (fun pa => parentIdAt t pa == some cid)).map (incOfPath t)).sum +
  (((L.filter (paraQualifies opts t)).filter
      (fun pa => gpIdAt t pa == some cid)).map
      (fun pa => (incOfPath t pa).half)).sum

/-- Is `cid` the parent or grandparent of some qualifying paragraph? -/
def specIsCand (opts : DocOptions) (t : Node) (L : List (List Nat))
    (cid : Nat) : Bool :=
  (L.filter (paraQualifies opts t)).any
    (fun pa => parentIdAt t pa == some cid || gpIdAt t pa == some cid)

/-- The score record created on first encounter: `score_node` of the
candidate element. -/
def specBase (opts : DocOptions) (t : Node) (cid : Nat) : Frac :=
  match t.byId cid with
  | some n => scoreNode opts n
  | none => 0

theorem alookup_append_single (m : CandList) (i : Nat) (v : Frac) (cid : Nat) :
    alookup (m ++ [(i, v)]) cid =
      (match alookup m cid with
       | some w => some w
       | none => if cid = i then some v else none) := by
  induction m with
  | nil =>
    by_cases hci : cid = i
    · subst hci
      simp [alookup, List.find?]
    · have : (i == cid) = false := by
        simp only [beq_eq_false_iff_ne]
        exact fun he => hci he.symm
      simp [alookup, List.find?, this, hci]
  | cons e rest ih =>
    by_cases he : (e.1 == cid) = true
    · simp only [alookup, List.cons_append, List.find?_cons, he]
      rfl
    · have he' : (e.1 == cid) = false := by simpa using he
      simp only [alookup, List.cons_append, List.find?_cons, he']
      simp only [alookup] at ih
      exact ih

theorem alookup_addToCand (m : CandList) (i : Nat) (v : Frac) (cid : Nat) :
    alookup (addToCand m i v) cid =
      if cid = i then (alookup m cid).map (fun w => w + v)
      else alookup m cid := by
  induction m with
  | nil => by_cases h : cid = i <;> simp [addToCand, alookup, List.find?, h]
  | cons e rest ih =>
    have hkeypres : (if e.1 == i then (e.1, e.2 + v) else e).1 = e.1 := by
      by_cases hei : (e.1 == i) = true <;> simp [hei]
    have hkeybeq : ((if e.1 == i then (e.1, e.2 + v) else e).1 == cid) = (e.1 == cid) := by
      rw [hkeypres]
    by_cases he : (e.1 == cid) = true
    · have he' : e.1 = cid := by simpa using he
      simp only [addToCand, List.map_cons, alookup, List.find?_cons, hkeybeq, he]
      by_cases hci : cid = i
      · have hei : (e.1 == i) = true := by simp [he', hci]
        simp [hei, hci]
      · have hei : (e.1 == i) = false := by
          simp only [beq_eq_false_iff_ne]
          rw [he']
          exact hci
        simp [hei, hci]
    · have he' : (e.1 == cid) = false := by simpa using he
      simp only [addToCand, List.map_cons, alookup, List.find?_cons, hkeybeq, he']
      simp only [addToCand, alookup] at ih
      exact ih

theorem alookup_map_scale (m : CandList) (f : Nat → Frac → Frac) (cid : Nat) :
    alookup (m.map (fun e => (e.1, f e.1 e.2))) cid =
      (alookup m cid).map (fun v => f cid v) := by
  induction m with
  | nil => simp [alookup]
  | cons e rest ih =>
    simp only [List.map_cons, alookup, List.find?]
    by_cases h : e.1 == cid
    · have h' : e.1 = cid := by simpa using h
      simp [h, h']
    · simp only [Bool.not_eq_true] at h
      simp only [h]
      exact ih

theorem specContrib_eq_zero {opts : DocOptions} {t : Node} {L : List (List Nat)}
    {cid : Nat} (h : specIsCand opts t L cid = false) :
    specContrib opts t L cid = 0 := by
  simp only [specIsCand, List.any_eq_false] at h
  have h1 : (L.filter (paraQualifies opts t)).filter
      (fun pa => parentIdAt t pa == some cid) = [] := by
    rw [List.filter_eq_nil_iff]
    intro pa hpa
    have := h pa hpa
    simp only [Bool.or_eq_true, not_or] at this
    simp [this.1]
  have h2 : (L.filter (paraQualifies opts t)).filter
      (fun pa => gpIdAt t pa == some cid) = [] := by
    rw [List.filter_eq_nil_iff]
    intro pa hpa
    have := h pa hpa
    simp only [Bool.or_eq_true, not_or] at this
    simp [this.2]
  simp only [specContrib, h1, h2, List.map_nil, List.sum_nil]
  exact Frac.add_zero' 0

theorem alookup_ensureCand (opts : DocOptions) (m : CandList) (n : Node)
    (cid : Nat) :
    alookup (ensureCand opts m n) cid =
      (match alookup m cid with
       | some w => some w
       | none => if cid = n.nid then some (scoreNode opts n) else none) := by
  simp only [ensureCand]
  by_cases habs : (alookup m n.nid).isNone
  · rw [if_pos habs]
    exact alookup_append_single m n.nid (scoreNode opts n) cid
  · rw [if_neg habs]
    cases hc : alookup m cid with
    | some w => rfl
    | none =>
      by_cases hcn : cid = n.nid
      · subst hcn
        rw [hc] at habs
        simp at habs
      · simp [hcn]

theorem specIsCand_append (opts : DocOptions) (t : Node) (L : List (List Nat))
    (pa : List Nat) (cid : Nat) :
    specIsCand opts t (L ++ [pa]) cid =
      (specIsCand opts t L cid ||
        (paraQualifies opts t pa &&
          (parentIdAt t pa == some cid || gpIdAt t pa == some cid))) := by
  simp only [specIsCand, List.filter_append, List.any_append]
  congr 1
  by_cases hq : paraQualifies opts t pa
  · simp [hq]
  · simp [hq]

theorem specContrib_append (opts : DocOptions) (t : Node) (L : List (List Nat))
    (pa : List Nat) (cid : Nat) :
    specContrib opts t (L ++ [pa]) cid =
      specContrib opts t L cid +
        ((if paraQualifies opts t pa && (parentIdAt t pa == some cid)
            then incOfPath t pa else 0) +
         (if paraQualifies opts t pa && (gpIdAt t pa == some cid)
            then Frac.half (incOfPath t pa) else 0)) := by
  simp only [specContrib, List.filter_append]
  by_cases hq : paraQualifies opts t pa
  · by_cases hp : (parentIdAt t pa == some cid) = true
    · by_cases hg : (gpIdAt t pa == some cid) = true
      · first
        | (simp [hq, hp, hg, List.filter_cons]; abel)
        | simp [hq, hp, hg, List.filter_cons]
      · first
        | (simp [hq, hp, hg, List.filter_cons]; abel)
        | simp [hq, hp, hg, List.filter_cons]
    · by_cases hg : (gpIdAt t pa == some cid) = true
      · first
        | (simp [hq, hp, hg, List.filter_cons]; abel)
        | simp [hq, hp, hg, List.filter_cons]
      · first
        | (simp [hq, hp, hg, List.filter_cons]; abel)
        | simp [hq, hp, hg, List.filter_cons]
  · first
    | (simp [hq, List.filter_cons]; abel)
    | simp [hq, List.filter_cons]

theorem some_beq_some (a b : Nat) : ((some a : Option Nat) == some b) = (a == b) := by
  rfl

theorem none_beq_some (b : Nat) : ((none : Option Nat) == some b) = false := by
  rfl

theorem scoreParaStep_not_qual (opts : DocOptions) (t : Node) (m : CandList)
    {pa : List Nat} (hq : paraQualifies opts t pa = false) :
    scoreParaStep opts t m pa = m := by
  cases pa with
  | nil => rfl
  | cons j rest =>
    simp only [paraQualifies, List.isEmpty_cons, Bool.not_false, Bool.true_and] at hq
    simp only [scoreParaStep]
    cases hel : nodeAtPath (j :: rest) t with
    | none => simp
    | some elem =>
      rw [hel] at hq
      simp only [decide_eq_false_iff_not, Nat.not_le] at hq
      simp [hel, hq]

theorem scoreParaStep_invariant (opts : DocOptions) (t : Node) (hu : UniqueIds t)
    (L : List (List Nat)) (m : CandList) (pa : List Nat)
    (hm : ∀ cid, alookup m cid =
      if specIsCand opts t L cid then
        some (specBase opts t cid + specContrib opts t L cid) else none) :
    ∀ cid, alookup (scoreParaStep opts t m pa) cid =
      if specIsCand opts t (L ++ [pa]) cid then
        some (specBase opts t cid + specContrib opts t (L ++ [pa]) cid)
      else none := by
  intro cid
  rw [specIsCand_append, specContrib_append]
  by_cases hq : paraQualifies opts t pa = true
  case neg =>
    have hq' : paraQualifies opts t pa = false := by simpa using hq
    rw [scoreParaStep_not_qual opts t m hq', hm cid, hq']
    simp only [Bool.false_and, Bool.false_eq_true, if_false, Bool.or_false]
    by_cases hc : specIsCand opts t L cid = true
    · simp [hc, Frac.add_zero']
    · simp [hc]
  case pos =>
    cases pa with
    | nil => simp [paraQualifies] at hq
    | cons j rest =>
      cases hel : nodeAtPath (j :: rest) t with
      | none => simp [paraQualifies, hel] at hq
      | some elem =>
        have hlen : opts.minTextLength ≤ (pyClean elem.textContent).length := by
          simp only [paraQualifies, hel, List.isEmpty_cons, Bool.not_false,
            Bool.true_and, decide_eq_true_eq] at hq
          exact hq
        obtain ⟨pn, hpn⟩ : ∃ pn, nodeAtPath ((j :: rest).dropLast) t = some pn := by
          obtain ⟨y, hy⟩ := take_prefix_valid hel ((j :: rest).length - 1)
          rw [← List.dropLast_eq_take] at hy
          exact ⟨y, hy⟩
        have hpid : parentIdAt t (j :: rest) = some pn.nid := by
          simp [parentIdAt, hpn]
        have hbase : specBase opts t pn.nid = scoreNode opts pn := by
          simp [specBase, byId_of_nodeAt hu hpn]
        have hinc : incOfPath t (j :: rest) =
            Frac.ofNat (1 + commaSegments (pyClean elem.textContent) +
              min ((pyClean elem.textContent).length / 100) 3) := by
          simp [incOfPath, hel]
        simp only [scoreParaStep, hel, if_neg (Nat.not_lt.mpr hlen), hpn]
        by_cases hroot : ((j :: rest).dropLast).isEmpty
        · -- the parent is the root: no grandparent
          have hgid : gpIdAt t (j :: rest) = none := by
            simp [gpIdAt, hroot]
          rw [if_pos hroot]
          rw [hq, hpid, hgid, hinc]
          simp only [Bool.true_and, none_beq_some, Bool.or_false, Bool.false_eq_true,
            if_false, Frac.add_zero']
          rw [alookup_addToCand, alookup_ensureCand]
          by_cases hcp : cid = pn.nid
          · have hbeqp : ((some pn.nid : Option Nat) == some cid) = true := by
              simp [some_beq_some, hcp]
            rw [if_pos hcp, hbeqp]
            simp only [Bool.or_true, eq_self_iff_true, if_true]
            rw [hm cid]
            by_cases hcand : specIsCand opts t L cid = true
            · rw [if_pos hcand]
              simp only [Option.map_some']
              rw [← add_assoc]
            · rw [if_neg hcand]
              have hbase' : specBase opts t cid = scoreNode opts pn := by
                rw [hcp]; exact hbase
              simp only [if_pos hcp, Option.map_some', hbase',
                specContrib_eq_zero (by simpa using hcand), Frac.zero_add']
          · have hbeqp : ((some pn.nid : Option Nat) == some cid) = false := by
              simp only [some_beq_some, beq_eq_false_iff_ne]
              exact fun h => hcp h.symm
            rw [if_neg hcp, hbeqp]
            simp only [Bool.or_false, Bool.false_eq_true, if_false, Frac.add_zero']
            rw [hm cid]
            by_cases hcand : specIsCand opts t L cid = true
            · rw [if_pos hcand]
            · rw [if_neg hcand]
              simp [hcp]
        · -- a grandparent exists
          have hroot' : ((j :: rest).dropLast).isEmpty = false := by
            simpa using hroot
          obtain ⟨g, hg⟩ :
              ∃ g, nodeAtPath (((j :: rest).dropLast).dropLast) t = some g := by
            obtain ⟨y, hy⟩ :=
              take_prefix_valid hpn (((j :: rest).dropLast).length - 1)
            rw [← List.dropLast_eq_take] at hy
            exact ⟨y, hy⟩
          have hgid : gpIdAt t (j :: rest) = some g.nid := by
            simp [gpIdAt, hroot', hg]
          have hgbase : specBase opts t g.nid = scoreNode opts g := by
            simp [specBase, byId_of_nodeAt hu hg]
          have hne : pn.nid ≠ g.nid := by
            intro hnn
            have hpaths := nodeAt_inj hu hpn hg hnn
            have hlen1 : ((j :: rest).dropLast).length ≠ 0 := by
              intro h0
              rw [List.length_eq_zero] at h0
              rw [h0] at hroot'
              simp at hroot'
            have hlda : ((j :: rest).dropLast).length = (j :: rest).length - 1 :=
              List.length_dropLast _
            have hldb : (((j :: rest).dropLast).dropLast).length =
                ((j :: rest).dropLast).length - 1 := List.length_dropLast _
            have := congrArg List.length hpaths
            omega
          rw [if_neg (by simp [hroot'])]
          rw [hg]
          rw [hq, hpid, hgid, hinc]
          simp only [Bool.true_and]
          rw [alookup_addToCand, alookup_addToCand, alookup_ensureCand,
            alookup_ensureCand]
          by_cases hcp : cid = pn.nid
          · have hcg : ¬ (cid = g.nid) := by
              intro h
              exact hne (by rw [← hcp]; exact h)
            have hbeqp : ((some pn.nid : Option Nat) == some cid) = true := by
              simp [some_beq_some, hcp]
            have hbeqg : ((some g.nid : Option Nat) == some cid) = false := by
              simp only [some_beq_some, beq_eq_false_iff_ne]
              exact fun h => hcg h.symm
            rw [if_neg hcg, if_pos hcp, hbeqp, hbeqg]
            simp only [Bool.or_true, Bool.true_or, eq_self_iff_true, if_true,
              Bool.false_eq_true, if_false, Frac.add_zero']
            rw [hm cid]
            by_cases hcand : specIsCand opts t L cid = true
            · rw [if_pos hcand]
              simp only [Option.map_some']
              rw [← add_assoc]
            · rw [if_neg hcand]
              have hbase' : specBase opts t cid = scoreNode opts pn := by
                rw [hcp]; exact hbase
              simp only [if_pos hcp, Option.map_some', hbase',
                specContrib_eq_zero (by simpa using hcand), Frac.zero_add']
          · by_cases hcg : cid = g.nid
            · have hbeqp : ((some pn.nid : Option Nat) == some cid) = false := by
                simp only [some_beq_some, beq_eq_false_iff_ne]
                exact fun h => hcp h.symm
              have hbeqg : ((some g.nid : Option Nat) == some cid) = true := by
                simp [some_beq_some, hcg]
              rw [if_pos hcg, if_neg hcp, hbeqp, hbeqg]
              simp only [Bool.or_true, eq_self_iff_true, if_true,
                Bool.false_eq_true, if_false, Frac.zero_add']
              rw [hm cid]
              by_cases hcand : specIsCand opts t L cid = true
              · rw [if_pos hcand]
                simp only [Option.map_some']
                rw [← add_assoc]
              · rw [if_neg hcand]
                have hgbase' : specBase opts t cid = scoreNode opts g := by
                  rw [hcg]; exact hgbase
                simp only [if_neg hcp, if_pos hcg, Option.map_some', hgbase',
                  specContrib_eq_zero (by simpa using hcand), Frac.zero_add']
            · have hbeqp : ((some pn.nid : Option Nat) == some cid) = false := by
                simp only [some_beq_some, beq_eq_false_iff_ne]
                exact fun h => hcp h.symm
              have hbeqg : ((some g.nid : Option Nat) == some cid) = false := by
                simp only [some_beq_some, beq_eq_false_iff_ne]
                exact fun h => hcg h.symm
              rw [if_neg hcg, if_neg hcp, hbeqp, hbeqg]
              simp only [Bool.or_false, Bool.false_eq_true, if_false,
                Frac.add_zero']
              rw [hm cid]
              by_cases hcand : specIsCand opts t L cid = true
              · rw [if_pos hcand]
              · rw [if_neg hcand]
                simp [hcp, hcg]

theorem scoreParagraphs_fold (opts : DocOptions) (t : Node) (hu : UniqueIds t)
    (L : List (List Nat)) :
    ∀ cid, alookup (L.foldl (scoreParaStep opts t) []) cid =
      if specIsCand opts t L cid then
        some (specBase opts t cid + specContrib opts t L cid) else none := by
  induction L using List.reverseRecOn with
  | nil =>
    intro cid
    simp [alookup, specIsCand]
  | append_singleton L pa ih =>
    intro cid
    rw [List.foldl_append, List.foldl_cons, List.foldl_nil]
    exact scoreParaStep_invariant opts t hu L
      (L.foldl (scoreParaStep opts t) []) pa ih cid

/-- **C1.** `score_paragraphs` (lines 356-408) computes exactly the map
described by the spec: a node identifier is a candidate iff it is the
parent or grandparent of some qualifying paragraph (a `p`/`pre`/`td` whose
cleaned text reaches the minimum length, the grandparent existing only
when the parent is not the root), and a candidate's final score is
`(score_node(node) + Σ full increments as parent + Σ half increments as
grandparent) * (1 - link_density(node))`, the increment of a paragraph
being `1 + number of comma segments + min(text_length / 100, 3)`; the
`(1 - link_density)` scaling is applied exactly once, after all
paragraphs. -/
theorem C1_score_paragraphs_closed_form (opts : DocOptions) (t : Node)
    (hu : UniqueIds t) (cid : Nat) :
    alookup (scoreParagraphs opts t) cid =
      if specIsCand opts t (paraPaths t) cid then
        some ((specBase opts t cid + specContrib opts t (paraPaths t) cid) *
          Frac.oneSub (ldOfId t cid))
      else none := by
  have hfold := scoreParagraphs_fold opts t hu (paraPaths t) cid
  have hms : alookup (scoreParagraphs opts t) cid =
      (alookup ((paraPaths t).foldl (scoreParaStep opts t) []) cid).map
        (fun v => v * Frac.oneSub (ldOfId t cid)) :=
    alookup_map_scale ((paraPaths t).foldl (scoreParaStep opts t) [])
      (fun i v => v * Frac.oneSub (ldOfId t i)) cid
  rw [hms, hfold]
  by_cases hc : specIsCand opts t (paraPaths t) cid = true
  · rw [if_pos hc, if_pos hc]
    rfl
  · rw [if_neg hc, if_neg hc]
    rfl

/-- A small document for the C1 witness: a `div` root holding a `p` whose
cleaned text is 34 characters with one comma, plus an anchor child. -/
def c1doc : Node :=
  Node.mk 0 (str "div") [] []
    [Node.mk 1 (str "p") [] (str "hello wonderful world, once again!")
      [Node.mk 2 (str "a") [(str "href", str "x")] (str "link") []]]

theorem C1_witness :
    alookup (scoreParagraphs {} c1doc) 0 =
      if specIsCand {} c1doc (paraPaths c1doc) 0 then
        some ((specBase {} c1doc 0 + specContrib {} c1doc (paraPaths c1doc) 0) *
          Frac.oneSub (ldOfId c1doc 0))
      else none :=
  C1_score_paragraphs_closed_form {} c1doc (by decide) 0
